import Mathlib

/-!
# Shallow embedding of the `glob` crate (files `src/lib.rs`, `src/glob_parser.rs`, `src/multislice.rs`)

Rust strings (`&str`) are modelled as `List Char`.  The Rust code manipulates
*byte* indices (`str::len`, `&s[a..b]`, `str::find` all work on UTF-8 bytes),
so byte positions are tracked through `Char.utf8Size`.  Slicing a string at a
byte index that is not a character boundary panics in Rust; every operation
that can panic is therefore modelled with an `Option`, where `none` stands for
a panic and `some r` for a normal return of `r`.

Rust `while`/iterator loops are modelled with an explicit fuel argument (the
call sites pass fuel that provably dominates the number of iterations, and the
correctness theorems below discharge that sufficiency); running out of fuel
returns `none`.
-/

namespace LibGlob

/-- Byte length of a string (Rust `str::len`): sum of the UTF-8 sizes of its
characters. -/
def utf8Len (s : List Char) : Nat := (s.map Char.utf8Size).sum

/-- Rust `&s[n..]`: drop the first `n` bytes of `s`; `none` models the panic
when `n` is not a character boundary or exceeds the byte length. -/
def byteDrop : Nat → List Char → Option (List Char)
  | 0, s => some s
  | _+1, [] => none
  | n+1, c :: cs => if c.utf8Size ≤ n+1 then byteDrop (n+1 - c.utf8Size) cs else none

/-- Rust `&s[..n]`: take the first `n` bytes of `s`; `none` models the panic
when `n` is not a character boundary or exceeds the byte length. -/
def byteTake : Nat → List Char → Option (List Char)
  | 0, _ => some []
  | _+1, [] => none
  | n+1, c :: cs =>
    if c.utf8Size ≤ n+1 then (byteTake (n+1 - c.utf8Size) cs).map (c :: ·) else none

/-- Rust `&s[a..b]` (with `a ≤ b`, which holds at every call site in the
sources): the byte window from `a` (inclusive) to `b` (exclusive). -/
def byteSlice (a b : Nat) (s : List Char) : Option (List Char) :=
  (byteDrop a s).bind (byteTake (b - a))

/-! ## `src/multislice.rs` -/

/-- `MultiSlice<'g>`: an ordered collection of borrowed string fragments.  The
`total_length` field of the Rust struct is a cache that by construction always
equals the sum of the fragment byte lengths, so the model keeps only the
fragment list (`get_combined_length` recomputes the sum). -/
abbrev MultiSlice := List (List Char)

/-- `MultiSlice::get_combined_length`. -/
def getCombinedLength (ms : MultiSlice) : Nat := (ms.map utf8Len).sum

/-- Helper for `MultiSlice::get_next_non_empty_slice`: scan the given slices,
returning the first one with positive byte length together with its absolute
index (`i` is the absolute index of the first element of the remaining list). -/
def findNonEmptyFrom : List (List Char) → Nat → Option (Nat × List Char)
  | [], _ => none
  | sl :: rest, i => if 0 < utf8Len sl then some (i, sl) else findNonEmptyFrom rest (i+1)

/-- `MultiSlice::get_next_non_empty_slice(index)`: first slice with positive
length at position `index` or later, with its index. -/
def getNextNonEmptySlice (ms : MultiSlice) (index : Nat) : Option (Nat × List Char) :=
  findNonEmptyFrom (ms.drop index) index

/-- Loop body of `MultiSlice::matches_string_start`: walk the slices, `i` being
the byte offset already consumed from `string`.  The source checks
`slice_len > string_len - i` first (short-circuit `||`), so the window
`string[i..i+slice_len]` is only sliced (and can only panic) when it is within
bounds length-wise. -/
def matchesStringStartAux : List (List Char) → Nat → List Char → Option Bool
  | [], _, _ => some true
  | sl :: rest, i, s =>
    if utf8Len sl > utf8Len s - i then some false
    else
      match byteSlice i (i + utf8Len sl) s with
      | none => none
      | some w => if sl ≠ w then some false else matchesStringStartAux rest (i + utf8Len sl) s

/-- `MultiSlice::matches_string_start`. -/
def matchesStringStart (ms : MultiSlice) (s : List Char) : Option Bool :=
  matchesStringStartAux ms 0 s

/-- Rust `str::find` for a string pattern: the *byte* offset of the first
occurrence of `p` in `s`.  Since both strings are valid UTF-8 and UTF-8 is
self-synchronizing, the first occurrence is at the first *character* position
`j` whose suffix has `p` as a prefix; the returned byte offset is the byte
length of the first `j` characters.  `findPrefixPos` computes that character
position. -/
def findPrefixPos (p : List Char) : List Char → Option Nat
  | [] => if p.isPrefixOf [] then some 0 else none
  | c :: s => if p.isPrefixOf (c :: s) then some 0 else (findPrefixPos p s).map (· + 1)

/-- Rust `s.find(p)` (byte offset of the first occurrence of `p` in `s`). -/
def strFind (s p : List Char) : Option Nat :=
  (findPrefixPos p s).map fun j => utf8Len (s.take j)

/-- The `Option::Some(slice)` branch of
`AllMultiSliceOccurencesIterator::next`: the `while` loop that repeatedly
searches for the anchor (first non-empty) slice from byte cursor `cur` and
verifies a full match there.  Returns `none` for a panic (or fuel exhaustion,
which the call sites' fuel provably rules out), `some none` when the iterator
is exhausted, and `some (some (pos, cur'))` when it yields position `pos` with
updated cursor `cur' = pos + 1`. -/
def nextOccAux (ms : MultiSlice) (anchor s : List Char) : Nat → Nat → Option (Option (Nat × Nat))
  | 0, _ => none
  | fuel+1, cur =>
    if cur < utf8Len s then
      match byteDrop cur s with
      | none => none
      | some suffix =>
        match strFind suffix anchor with
        | none => some none
        | some rel =>
          match byteDrop (cur + rel) s with
          | none => none
          | some suffAbs =>
            match matchesStringStart ms suffAbs with
            | none => none
            | some true => some (some (cur + rel, cur + rel + 1))
            | some false => nextOccAux ms anchor s fuel (cur + rel + 1)
    else some none

/-- `AllMultiSliceOccurencesIterator::next`: `fne` is the cached
`first_non_empty_slice`, `cur` the `next_search_position`.  With no non-empty
slice the iterator yields every byte position up to and including the string
length; otherwise it runs the anchor-search loop. -/
def msIterNext (ms : MultiSlice) (fne : Option (List Char)) (s : List Char)
    (fuel cur : Nat) : Option (Option (Nat × Nat)) :=
  match fne with
  | none => if cur ≤ utf8Len s then some (some (cur, cur + 1)) else some none
  | some anchor => nextOccAux ms anchor s fuel cur

/-- Drain the occurrence iterator into a list (the aggregate behaviour of
`MultiSlice::find_all_occurences_in` followed by `collect()`). -/
def collectOccs (ms : MultiSlice) (fne : Option (List Char)) (s : List Char) :
    Nat → Nat → Option (List Nat)
  | 0, _ => none
  | fuel+1, cur =>
    match msIterNext ms fne s (utf8Len s + 1) cur with
    | none => none
    | some none => some []
    | some (some (pos, cur')) => (collectOccs ms fne s fuel cur').map (pos :: ·)

/-- `MultiSlice::find_all_occurences_in(string)`, drained into the list of all
yielded positions.  The iterator is created with
`first_non_empty_slice = slices.get_next_non_empty_slice(0)` and
`next_search_position = 0`. -/
def findAllOccurencesIn (ms : MultiSlice) (s : List Char) : Option (List Nat) :=
  collectOccs ms ((getNextNonEmptySlice ms 0).map (·.2)) s (utf8Len s + 2) 0

/-- One iteration of the `loop` in `impl PartialEq<MultiSlice> for MultiSlice`,
with explicit fuel.  State: current slice numbers `lNo`, `rNo` and byte offsets
`lIdx`, `rIdx` into the current left/right slice.  Byte windows of the two
current slices are compared `min`-length-wise; `none` models the panic when a
window boundary falls inside a multi-byte character. -/
def msEqLoop (a b : MultiSlice) : Nat → Nat → Nat → Nat → Nat → Option Bool
  | 0, _, _, _, _ => none
  | fuel+1, lNo, rNo, lIdx, rIdx =>
    match getNextNonEmptySlice a lNo, getNextNonEmptySlice b rNo with
    | none, some _ => some false
    | some _, none => some false
    | none, none => some true
    | some (lNo1, lSl), some (rNo1, rSl) =>
      let remL := utf8Len lSl - lIdx
      let remR := utf8Len rSl - rIdx
      let m := min remL remR
      match byteSlice lIdx (lIdx + m) lSl, byteSlice rIdx (rIdx + m) rSl with
      | some wl, some wr =>
        if wl ≠ wr then some false
        else
          msEqLoop a b fuel
            (if m = remL then lNo1 + 1 else lNo1) (if m = remR then rNo1 + 1 else rNo1)
            (if m = remL then 0 else lIdx + m) (if m = remR then 0 else rIdx + m)
      | _, _ => none

/-- `MultiSlice == MultiSlice` (the `PartialEq` implementation).  Every loop
iteration compares at least one byte from each side, so
`combined length of a + combined length of b + 1` fuel dominates the iteration
count. -/
def msEq (a b : MultiSlice) : Option Bool :=
  msEqLoop a b (getCombinedLength a + getCombinedLength b + 1) 0 0 0 0

/-! ## `src/glob_parser.rs` -/

/-- `Token<'g>`. -/
inductive Token where
  | ExactLengthWildcard : Nat → Token
  | MinLengthWildcard : Nat → Token
  | Literal : MultiSlice → Token
deriving DecidableEq, Repr

/-- `GlobParseError<'g>`. -/
inductive GlobParseError where
  | UnknownEscapeSequence : Nat → List Char → GlobParseError
  | UnterminatedEscapeSequence : Nat → GlobParseError
deriving DecidableEq, Repr

/-- `ParserState`. -/
inductive ParserState where
  | ExpectNew : ParserState
  | BorrowedLiteral : Nat → Nat → ParserState
  | ExpectEscapedCharacter : ParserState
deriving DecidableEq, Repr

/-- `wildcard_for_character`.  The Rust function panics on any character other
than `*` and `?`; every call site first matches on `'*' | '?'`, so the panic
arm is unreachable and the model simply maps every non-`*` character of the
call sites to the `?` wildcard. -/
def wildcardForCharacter (c : Char) : Token :=
  if c = '*' then Token.MinLengthWildcard 0 else Token.ExactLengthWildcard 1

/-- `merge_wildcard_tokens`; `none` models the panic when one of the tokens is
not a wildcard.  The source matches `(ExactLengthWildcard, ExactLengthWildcard)`
first, then any remaining combination of two wildcards. -/
def mergeWildcardTokens : Token → Token → Option Token
  | Token.ExactLengthWildcard a, Token.ExactLengthWildcard b =>
    some (Token.ExactLengthWildcard (a + b))
  | Token.ExactLengthWildcard a, Token.MinLengthWildcard b =>
    some (Token.MinLengthWildcard (a + b))
  | Token.MinLengthWildcard a, Token.ExactLengthWildcard b =>
    some (Token.MinLengthWildcard (a + b))
  | Token.MinLengthWildcard a, Token.MinLengthWildcard b =>
    some (Token.MinLengthWildcard (a + b))
  | _, _ => none

/-- `append_wildcard_to_token_sequence`: pop the last token; push the new token
directly if the sequence was empty or ended in a literal, otherwise push the
merge of the two wildcards. -/
def appendWildcardToTokenSequence (ts : List Token) (tok : Token) : Option (List Token) :=
  match ts.getLast? with
  | none => some [tok]
  | some (Token.Literal _) => some (ts ++ [tok])
  | some w => (mergeWildcardTokens w tok).map (fun m => ts.dropLast ++ [m])

/-- `append_literal_to_token_sequence`: push the fragment into the trailing
literal's `MultiSlice` if the sequence ends in a literal, otherwise start a new
single-fragment literal token. -/
def appendLiteralToTokenSequence (ts : List Token) (lit : List Char) : List Token :=
  match ts.getLast? with
  | none => [Token.Literal [lit]]
  | some (Token.Literal ms) => ts.dropLast ++ [Token.Literal (ms ++ [lit])]
  | some _ => ts ++ [Token.Literal [lit]]

/-- The `for (i, c) in str.chars().enumerate()` loop of `parse_glob_string`
plus the final state flush.  `full` is the whole pattern (needed because the
source borrows slices `&str[start..end]` from it), `i` the enumeration index of
the head of `rem`.  Crucially, `i` counts *characters* (it comes from
`chars().enumerate()`) while Rust slicing `&full[start..end]` works on *bytes*;
the model applies `byteSlice` to these character counts exactly as the source
does, so the two agree only while all characters seen so far are single-byte. -/
def parseGlobLoop (full : List Char) :
    Nat → List Char → ParserState → List Token → Option (Except GlobParseError (List Token))
  | _, [], ParserState.ExpectNew, out => some (Except.ok out)
  | _, [], ParserState.BorrowedLiteral start fin, out =>
    match byteSlice start fin full with
    | none => none
    | some w => some (Except.ok (appendLiteralToTokenSequence out w))
  | _, [], ParserState.ExpectEscapedCharacter, _ =>
    some (Except.error (GlobParseError.UnterminatedEscapeSequence (utf8Len full - 1)))
  | i, c :: cs, st, out =>
    if c = '*' ∨ c = '?' then
      match st with
      | ParserState.ExpectNew =>
        match appendWildcardToTokenSequence out (wildcardForCharacter c) with
        | none => none
        | some out1 => parseGlobLoop full (i+1) cs ParserState.ExpectNew out1
      | ParserState.BorrowedLiteral start fin =>
        match byteSlice start fin full with
        | none => none
        | some w =>
          parseGlobLoop full (i+1) cs ParserState.ExpectNew
            (appendLiteralToTokenSequence out w ++ [wildcardForCharacter c])
      | ParserState.ExpectEscapedCharacter =>
        parseGlobLoop full (i+1) cs (ParserState.BorrowedLiteral i (i+1)) out
    else if c = '\\' then
      match st with
      | ParserState.ExpectNew =>
        parseGlobLoop full (i+1) cs ParserState.ExpectEscapedCharacter out
      | ParserState.BorrowedLiteral start fin =>
        match byteSlice start fin full with
        | none => none
        | some w =>
          parseGlobLoop full (i+1) cs ParserState.ExpectEscapedCharacter
            (appendLiteralToTokenSequence out w)
      | ParserState.ExpectEscapedCharacter =>
        parseGlobLoop full (i+1) cs (ParserState.BorrowedLiteral i (i+1)) out
    else
      match st with
      | ParserState.ExpectNew =>
        parseGlobLoop full (i+1) cs (ParserState.BorrowedLiteral i (i+1)) out
      | ParserState.BorrowedLiteral start _ =>
        parseGlobLoop full (i+1) cs (ParserState.BorrowedLiteral start (i+1)) out
      | ParserState.ExpectEscapedCharacter =>
        match byteSlice (i-1) (i+1) full with
        | none => none
        | some w => some (Except.error (GlobParseError.UnknownEscapeSequence (i-1) w))

/-- `parse_glob_string`. -/
def parseGlobString (s : List Char) : Option (Except GlobParseError (List Token)) :=
  parseGlobLoop s 0 s ParserState.ExpectNew []

/-! ## `src/lib.rs` -/

/-- The `for m in literal.find_all_occurences_in(string)` loop of
`token_sequence_matches_partially`, with the match of the remaining tokens
supplied as the continuation `matchRest` (the loop body evaluates it on
`&string[m + literal.get_combined_length()..]` and returns `true` on the first
success).  `fne` is the iterator's cached first non-empty slice and `cur` its
cursor; the loop, like the iterator it drives, advances the cursor on every
step, so `utf8Len s + 2` fuel dominates the iteration count. -/
def tryOccurrences (lit : MultiSlice) (fne : Option (List Char)) (s : List Char)
    (matchRest : List Char → Option Bool) : Nat → Nat → Option Bool
  | 0, _ => none
  | fuel+1, cur =>
    match msIterNext lit fne s (utf8Len s + 1) cur with
    | none => none
    | some none => some false
    | some (some (pos, cur1)) =>
      match byteDrop (pos + getCombinedLength lit) s with
      | none => none
      | some s1 =>
        match matchRest s1 with
        | none => none
        | some true => some true
        | some false => tryOccurrences lit fne s matchRest fuel cur1

mutual

/-- `token_sequence_matches_at_start`. -/
def tokenSequenceMatchesAtStart : List Token → List Char → Option Bool
  | [], _ => some true
  | Token.ExactLengthWildcard n :: rest, s =>
    if n ≤ utf8Len s then
      match byteDrop n s with
      | none => none
      | some s1 => tokenSequenceMatchesAtStart rest s1
    else some false
  | Token.Literal lit :: rest, s =>
    match matchesStringStart lit s with
    | none => none
    | some false => some false
    | some true =>
      match byteDrop (getCombinedLength lit) s with
      | none => none
      | some s1 => tokenSequenceMatchesAtStart rest s1
  | Token.MinLengthWildcard n :: rest, s =>
    if n ≤ utf8Len s then
      match byteDrop n s with
      | none => none
      | some s1 => tokenSequenceMatchesPartially rest s1
    else some false

/-- `token_sequence_matches_partially`. -/
def tokenSequenceMatchesPartially : List Token → List Char → Option Bool
  | [], _ => some true
  | Token.MinLengthWildcard n :: rest, s
  | Token.ExactLengthWildcard n :: rest, s =>
    if n ≤ utf8Len s then
      match byteDrop n s with
      | none => none
      | some s1 => tokenSequenceMatchesPartially rest s1
    else some false
  | Token.Literal lit :: rest, s =>
    tryOccurrences lit ((getNextNonEmptySlice lit 0).map (·.2)) s
      (tokenSequenceMatchesAtStart rest) (utf8Len s + 2) 0

end

/-- `ParsedGlobString::matches_partially` delegates to
`token_sequence_matches_partially` on the parsed token sequence. -/
def matchesPartially (tokens : List Token) (s : List Char) : Option Bool :=
  tokenSequenceMatchesPartially tokens s

/-! ## Auxiliary definitions used by the specification statements -/

/-- Token classifier: both wildcard shapes. -/
def isWildcard : Token → Bool
  | Token.ExactLengthWildcard _ => true
  | Token.MinLengthWildcard _ => true
  | Token.Literal _ => false

/-- Token classifier: literal tokens. -/
def isLiteral : Token → Bool
  | Token.Literal _ => true
  | _ => false

/-- All characters of `s` occupy one byte in UTF-8.  The Rust code confuses
byte indices and character indices in several places; on strings whose
characters are all single-byte the two notions coincide. -/
def OneByte (s : List Char) : Prop := ∀ c ∈ s, c.utf8Size = 1

instance : DecidablePred OneByte := fun s => List.decidableBAll _ s

/-- The buffer content occurs at byte offset `i` of `t`: the suffix of `t`
starting at `i` exists (is a character boundary) and `matches_string_start`
returns `true` on it.  This is the specification-side occurrence predicate the
occurrence iterator is compared against. -/
def occursAtB (ms : MultiSlice) (t : List Char) (i : Nat) : Bool :=
  match byteDrop i t with
  | none => false
  | some suf => decide (matchesStringStart ms suf = some true)

/-- The error component of a parse result. -/
def errPart : Except GlobParseError (List Token) → Option GlobParseError
  | Except.ok _ => none
  | Except.error e => some e

/-- Modelled from the spec (§4.2 error rules, claim C4): the first escape error
of a pattern, found by a plain left-to-right scan that pairs each unescaped
escape character with the character after it.  `i` is the index of the head of
the remaining list.  Compared against the parser as a refinement. -/
def specEscapeError : Nat → List Char → Option GlobParseError
  | _, [] => none
  | i, c :: rest =>
    if c = '\\' then
      match rest with
      | [] => some (GlobParseError.UnterminatedEscapeSequence i)
      | d :: rest1 =>
        if d = '*' ∨ d = '?' ∨ d = '\\' then specEscapeError (i+2) rest1
        else some (GlobParseError.UnknownEscapeSequence i ['\\', d])
    else specEscapeError (i+1) rest

/-- Modelled from the spec (claim C4): the escape-error outcome expected from a
parser state in the middle of the scan.  In the `ExpectEscapedCharacter` state
`i` is the position *after* the pending escape character (which sits at
`i - 1`); in the other states the expectation is simply the first escape error
of the remaining input. -/
def specEscapeCont (st : ParserState) (i : Nat) (rem : List Char) : Option GlobParseError :=
  match st with
  | ParserState.ExpectEscapedCharacter =>
    match rem with
    | [] => some (GlobParseError.UnterminatedEscapeSequence (i-1))
    | d :: rest1 =>
      if d = '*' ∨ d = '?' ∨ d = '\\' then specEscapeError (i+1) rest1
      else some (GlobParseError.UnknownEscapeSequence (i-1) ['\\', d])
  | _ => specEscapeError i rem

/-- Well-formedness of a single parsed token: wildcards produced by the parser
have positive length when exact, and literal buffers are non-empty lists of
non-empty fragments. -/
def TokenOk : Token → Prop
  | Token.ExactLengthWildcard n => 0 < n
  | Token.MinLengthWildcard _ => True
  | Token.Literal ms => ms ≠ [] ∧ ∀ sl ∈ ms, sl ≠ []

/-- Adjacency discipline of a parsed token sequence: no two neighbouring
wildcards, no two neighbouring literals. -/
def AdjOk (t1 t2 : Token) : Prop :=
  ¬(isWildcard t1 = true ∧ isWildcard t2 = true) ∧
  ¬(isLiteral t1 = true ∧ isLiteral t2 = true)

/-- Invariant of parser output (claims C2, C8, C10). -/
def TokenSeqInv (ts : List Token) : Prop :=
  List.Chain' AdjOk ts ∧ ∀ t ∈ ts, TokenOk t

/-- Remaining content of a fragment buffer from equality-loop state
`(no, idx)`: everything from slice number `no` on, with the first `idx` bytes
removed; `none` when `idx` is not a character boundary. -/
def remMS (ms : MultiSlice) (no idx : Nat) : Option (List Char) :=
  byteDrop idx (ms.drop no).flatten

/-- Well-formedness of an equality-loop state: the byte offset is zero or
points strictly inside the (non-empty) current slice, on a character
boundary. -/
def StateOk (ms : MultiSlice) (no idx : Nat) : Prop :=
  idx = 0 ∨ ∃ sl tail, ms[no]? = some sl ∧ byteDrop idx sl = some tail ∧ tail ≠ []

/-! ## Byte-arithmetic lemmas -/

@[simp]
theorem utf8Len_nil : utf8Len [] = 0 := rfl

@[simp]
theorem utf8Len_cons (c : Char) (s : List Char) :
    utf8Len (c :: s) = c.utf8Size + utf8Len s := rfl

@[simp]
theorem utf8Len_append (s t : List Char) : utf8Len (s ++ t) = utf8Len s + utf8Len t := by
  induction s with
  | nil => simp
  | cons c s ih => simp [ih]; omega

theorem length_le_utf8Len (s : List Char) : s.length ≤ utf8Len s := by
  induction s with
  | nil => simp
  | cons c s ih => have := Char.utf8Size_pos c; simp; omega

theorem utf8Len_eq_zero {s : List Char} : utf8Len s = 0 ↔ s = [] := by
  cases s with
  | nil => simp
  | cons c s => have := Char.utf8Size_pos c; simp; omega

@[simp]
theorem byteDrop_zero (s : List Char) : byteDrop 0 s = some s := by cases s <;> rfl

theorem byteDrop_cons {n : Nat} (hn : 0 < n) (c : Char) (cs : List Char) :
    byteDrop n (c :: cs) =
      if c.utf8Size ≤ n then byteDrop (n - c.utf8Size) cs else none := by
  cases n with
  | zero => omega
  | succ m => rfl

theorem byteTake_cons {n : Nat} (hn : 0 < n) (c : Char) (cs : List Char) :
    byteTake n (c :: cs) =
      if c.utf8Size ≤ n then (byteTake (n - c.utf8Size) cs).map (c :: ·) else none := by
  cases n with
  | zero => omega
  | succ m => rfl

theorem byteDrop_some_utf8Len {n : Nat} {s t : List Char} (h : byteDrop n s = some t) :
    utf8Len s = n + utf8Len t := by
  induction s generalizing n with
  | nil =>
    cases n with
    | zero => simp at h; simp [h]
    | succ m => simp [byteDrop] at h
  | cons c cs ih =>
    cases n with
    | zero => simp at h; simp [h]
    | succ m =>
      rw [byteDrop_cons (Nat.succ_pos m)] at h
      split at h
      · have := ih h; have := Char.utf8Size_pos c; simp; omega
      · exact absurd h (by simp)

theorem byteDrop_nil_of_some {n : Nat} {s : List Char} (h : byteDrop n s = some []) :
    n = utf8Len s := by
  have := byteDrop_some_utf8Len h
  simp at this
  omega

theorem byteDrop_append_of_some {n : Nat} {x t : List Char} (h : byteDrop n x = some t)
    (y : List Char) : byteDrop n (x ++ y) = some (t ++ y) := by
  induction x generalizing n with
  | nil =>
    cases n with
    | zero => simp at h; simp [h]
    | succ m => simp [byteDrop] at h
  | cons c cs ih =>
    cases n with
    | zero => simp at h; simp [h]
    | succ m =>
      rw [byteDrop_cons (Nat.succ_pos m)] at h
      rw [List.cons_append, byteDrop_cons (Nat.succ_pos m)]
      split at h
      · rw [if_pos (by assumption)]; exact ih h
      · exact absurd h (by simp)

theorem byteDrop_add_of_some {m : Nat} {s t : List Char} (h : byteDrop m s = some t)
    (n : Nat) : byteDrop (m + n) s = byteDrop n t := by
  induction s generalizing m with
  | nil =>
    cases m with
    | zero => simp at h; simp [h]
    | succ k => simp [byteDrop] at h
  | cons c cs ih =>
    cases m with
    | zero => simp at h; simp [h]
    | succ k =>
      rw [byteDrop_cons (Nat.succ_pos k)] at h
      split at h
      · have hle : c.utf8Size ≤ k + 1 := by assumption
        rw [byteDrop_cons (by omega : 0 < k + 1 + n), if_pos (by omega)]
        have : k + 1 + n - c.utf8Size = (k + 1 - c.utf8Size) + n := by omega
        rw [this]
        exact ih h
      · exact absurd h (by simp)

theorem byteTake_some {n : Nat} {s w : List Char} (h : byteTake n s = some w) :
    utf8Len w = n ∧ ∃ t, byteDrop n s = some t ∧ s = w ++ t := by
  induction s generalizing n w with
  | nil =>
    cases n with
    | zero => simp [byteTake] at h; simp [h]
    | succ m => simp [byteTake] at h
  | cons c cs ih =>
    cases n with
    | zero => simp [byteTake] at h; simp [h]
    | succ m =>
      rw [byteTake_cons (Nat.succ_pos m)] at h
      split at h
      · simp only [Option.map_eq_some'] at h
        obtain ⟨w0, hw0, rfl⟩ := h
        obtain ⟨hlen, t, hdrop, hsplit⟩ := ih hw0
        refine ⟨by simp [hlen]; omega, t, ?_, by simp [hsplit]⟩
        rw [byteDrop_cons (Nat.succ_pos m), if_pos (by assumption)]
        exact hdrop
      · exact absurd h (by simp)

theorem byteTake_prefix {w s : List Char} (h : w <+: s) :
    byteTake (utf8Len w) s = some w := by
  induction w generalizing s with
  | nil => simp [byteTake]
  | cons c w ih =>
    obtain ⟨t, rfl⟩ := h
    have hpos : 0 < utf8Len (c :: w) := by have := Char.utf8Size_pos c; simp; omega
    rw [List.cons_append, byteTake_cons hpos, if_pos (by simp)]
    have : utf8Len (c :: w) - c.utf8Size = utf8Len w := by simp
    rw [this, ih ⟨t, rfl⟩]
    rfl

theorem byteDrop_prefix_append {w t : List Char} :
    byteDrop (utf8Len w) (w ++ t) = some t := by
  induction w with
  | nil => simp
  | cons c w ih =>
    have hpos : 0 < utf8Len (c :: w) := by have := Char.utf8Size_pos c; simp; omega
    rw [List.cons_append, byteDrop_cons hpos, if_pos (by simp)]
    have : utf8Len (c :: w) - c.utf8Size = utf8Len w := by simp
    rw [this]; exact ih

theorem utf8Len_le_of_prefix {p l : List Char} (h : p <+: l) : utf8Len p ≤ utf8Len l := by
  obtain ⟨t, rfl⟩ := h; simp

theorem prefix_eq_of_utf8Len_eq {p q l : List Char} (hp : p <+: l) (hq : q <+: l)
    (hlen : utf8Len p = utf8Len q) : p = q := by
  rcases List.prefix_or_prefix_of_prefix hp hq with h | h
  · obtain ⟨t, rfl⟩ := h
    simp at hlen
    have ht : t = [] := utf8Len_eq_zero.mp (by omega)
    rw [ht, List.append_nil]
  · obtain ⟨t, rfl⟩ := h
    simp at hlen
    have ht : t = [] := utf8Len_eq_zero.mp (by omega)
    rw [ht, List.append_nil]

theorem prefix_of_prefix_of_utf8Len_le {p q l : List Char} (hp : p <+: l) (hq : q <+: l)
    (hlen : utf8Len p ≤ utf8Len q) : p <+: q := by
  rcases List.prefix_or_prefix_of_prefix hp hq with h | h
  · exact h
  · obtain ⟨t, rfl⟩ := h
    simp at hlen
    have ht : t = [] := utf8Len_eq_zero.mp (by omega)
    rw [ht, List.append_nil]

theorem OneByte.utf8Len_eq {s : List Char} (h : OneByte s) : utf8Len s = s.length := by
  induction s with
  | nil => simp
  | cons c cs ih =>
    simp only [utf8Len_cons, List.length_cons, h c (by simp)]
    rw [ih (fun x hx => h x (by simp [hx]))]
    omega

theorem OneByte.drop {s : List Char} (h : OneByte s) (n : Nat) : OneByte (s.drop n) :=
  fun c hc => h c (List.mem_of_mem_drop hc)

theorem OneByte.byteDrop_eq {s : List Char} (h : OneByte s) (n : Nat) :
    byteDrop n s = if n ≤ s.length then some (s.drop n) else none := by
  induction s generalizing n with
  | nil =>
    cases n with
    | zero => simp
    | succ m => simp [byteDrop]
  | cons c cs ih =>
    cases n with
    | zero => simp
    | succ m =>
      rw [byteDrop_cons (Nat.succ_pos m), h c (by simp), if_pos (by omega)]
      rw [ih (fun x hx => h x (by simp [hx]))]
      simp only [Nat.add_sub_cancel, List.length_cons, List.drop_succ_cons]
      split <;> split <;> first | rfl | omega

theorem OneByte.byteTake_eq {s : List Char} (h : OneByte s) (n : Nat) :
    byteTake n s = if n ≤ s.length then some (s.take n) else none := by
  induction s generalizing n with
  | nil =>
    cases n with
    | zero => simp [byteTake]
    | succ m => simp [byteTake]
  | cons c cs ih =>
    cases n with
    | zero => simp [byteTake]
    | succ m =>
      rw [byteTake_cons (Nat.succ_pos m), h c (by simp), if_pos (by omega)]
      rw [ih (fun x hx => h x (by simp [hx]))]
      simp only [Nat.add_sub_cancel, List.length_cons, List.take_succ_cons]
      split <;> split <;> first | rfl | omega


/-! ## Claim C1 -/

/-- Claim C1 (code bug witness): the claim states that `matches_partially` on a
successfully parsed pattern never fails for any candidate string, including
strings with multi-byte characters.  The code violates this: the pattern `"?"`
parses to a single exact-length-1 wildcard, but matching it against `"é"`
(one character, two bytes) slices the candidate at byte offset 1, which is not
a character boundary, and panics. -/
theorem C1_matches_partially_panics_on_multibyte_candidate :
    parseGlobString "?".toList = some (Except.ok [Token.ExactLengthWildcard 1]) ∧
    tokenSequenceMatchesPartially [Token.ExactLengthWildcard 1] ['é'] = none ∧
    matchesPartially [Token.ExactLengthWildcard 1] ['é'] = none :=
  ⟨rfl, rfl, rfl⟩

/-! ## Claim C5 -/

/-- Claim C5: wildcard merging is arithmetic.  Two exact-length wildcards merge
into an exact-length wildcard of the summed length; any combination involving a
minimum-length wildcard merges into a minimum-length wildcard whose bound is
the sum of the operands' bounds; whenever the last token of the sequence is a
wildcard, appending a wildcard merges instead of appending; and parsing
`"?*?**?"` yields the single token `MinLengthWildcard 3`. -/
theorem C5_wildcard_merging :
    (∀ a b, mergeWildcardTokens (Token.ExactLengthWildcard a) (Token.ExactLengthWildcard b) =
      some (Token.ExactLengthWildcard (a + b))) ∧
    (∀ a b, mergeWildcardTokens (Token.MinLengthWildcard a) (Token.ExactLengthWildcard b) =
      some (Token.MinLengthWildcard (a + b))) ∧
    (∀ a b, mergeWildcardTokens (Token.ExactLengthWildcard a) (Token.MinLengthWildcard b) =
      some (Token.MinLengthWildcard (a + b))) ∧
    (∀ a b, mergeWildcardTokens (Token.MinLengthWildcard a) (Token.MinLengthWildcard b) =
      some (Token.MinLengthWildcard (a + b))) ∧
    (∀ (ts : List Token) (w tok : Token), isWildcard w = true → isWildcard tok = true →
      appendWildcardToTokenSequence (ts ++ [w]) tok =
        (mergeWildcardTokens w tok).map (fun m => ts ++ [m])) ∧
    parseGlobString "?*?**?".toList = some (Except.ok [Token.MinLengthWildcard 3]) := by
  refine ⟨fun a b => rfl, fun a b => rfl, fun a b => rfl, fun a b => rfl, ?_, rfl⟩
  intro ts w tok hw htok
  cases w with
  | Literal ms => simp [isWildcard] at hw
  | ExactLengthWildcard a =>
    cases tok with
    | Literal ms => simp [isWildcard] at htok
    | ExactLengthWildcard b =>
      simp [appendWildcardToTokenSequence, List.getLast?_concat, mergeWildcardTokens]
    | MinLengthWildcard b =>
      simp [appendWildcardToTokenSequence, List.getLast?_concat, mergeWildcardTokens]
  | MinLengthWildcard a =>
    cases tok with
    | Literal ms => simp [isWildcard] at htok
    | ExactLengthWildcard b =>
      simp [appendWildcardToTokenSequence, List.getLast?_concat, mergeWildcardTokens]
    | MinLengthWildcard b =>
      simp [appendWildcardToTokenSequence, List.getLast?_concat, mergeWildcardTokens]

/-- Witness for C5: appending a `*` wildcard after a `?` wildcard merges them
into `MinLengthWildcard 1` instead of appending. -/
theorem C5_wildcard_merging_witness :
    appendWildcardToTokenSequence [Token.ExactLengthWildcard 1] (Token.MinLengthWildcard 0) =
      some [Token.MinLengthWildcard 1] := by
  have h := C5_wildcard_merging.2.2.2.2.1 [] (Token.ExactLengthWildcard 1)
    (Token.MinLengthWildcard 0) rfl rfl
  simpa using h

/-! ## Claim C7 -/

/-- Claim C7: in the anchored matcher a leading minimum-length wildcard of
length `n` succeeds exactly when the string has at least `n` bytes and the
remaining tokens match via the *unanchored* procedure on the string with its
first `n` bytes dropped, whereas a leading exact-length wildcard recurses via
the *anchored* procedure; the asymmetry is exactly as described.  (Lengths and
dropping are in bytes, the unit the code uses throughout.) -/
theorem C7_anchored_wildcard_asymmetry (n : Nat) (rest : List Token) (s : List Char) :
    (tokenSequenceMatchesAtStart (Token.MinLengthWildcard n :: rest) s = some true ↔
      n ≤ utf8Len s ∧ (byteDrop n s).bind (tokenSequenceMatchesPartially rest) = some true) ∧
    (tokenSequenceMatchesAtStart (Token.ExactLengthWildcard n :: rest) s = some true ↔
      n ≤ utf8Len s ∧ (byteDrop n s).bind (tokenSequenceMatchesAtStart rest) = some true) := by
  constructor
  · simp only [tokenSequenceMatchesAtStart]
    split
    · rename_i hle
      cases h : byteDrop n s with
      | none => simp [h, hle]
      | some s1 => simp [h, hle]
    · rename_i hle
      simp only [Option.bind]
      constructor
      · intro hc; cases hc
      · rintro ⟨h1, -⟩; omega
  · simp only [tokenSequenceMatchesAtStart]
    split
    · rename_i hle
      cases h : byteDrop n s with
      | none => simp [h, hle]
      | some s1 => simp [h, hle]
    · rename_i hle
      simp only [Option.bind]
      constructor
      · intro hc; cases hc
      · rintro ⟨h1, -⟩; omega

/-! ## Claim C9 -/

/-- Claim C9: parsing `"abc\*def"` yields exactly one token, a literal whose
fragment buffer concatenates to `"abc*def"`; parsing `"\\"` yields exactly one
token, a literal whose content is a single backslash. -/
theorem C9_escape_round_trip :
    parseGlobString "abc\\*def".toList =
      some (Except.ok [Token.Literal ["abc".toList, "*def".toList]]) ∧
    (["abc".toList, "*def".toList] : MultiSlice).flatten = "abc*def".toList ∧
    parseGlobString "\\\\".toList = some (Except.ok [Token.Literal ["\\".toList]]) ∧
    (["\\".toList] : MultiSlice).flatten = "\\".toList :=
  ⟨rfl, rfl, rfl, rfl⟩


/-! ## Parser invariants (claims C2, C8, C10) -/

theorem isLiteral_eq_false {t : Token} (h : isWildcard t = true) : isLiteral t = false := by
  cases t <;> simp [isWildcard, isLiteral] at *

theorem isWildcard_eq_false {t : Token} (h : isLiteral t = true) : isWildcard t = false := by
  cases t <;> simp [isWildcard, isLiteral] at *

theorem wildcardForCharacter_isWildcard (c : Char) :
    isWildcard (wildcardForCharacter c) = true := by
  unfold wildcardForCharacter
  split <;> rfl

theorem wildcardForCharacter_tokenOk (c : Char) : TokenOk (wildcardForCharacter c) := by
  unfold wildcardForCharacter
  split
  · trivial
  · exact Nat.one_pos

theorem mergeWildcardTokens_some {w tok m : Token} (hw : TokenOk w) (htok : TokenOk tok)
    (h : mergeWildcardTokens w tok = some m) : isWildcard m = true ∧ TokenOk m := by
  cases w <;> cases tok <;>
    simp [mergeWildcardTokens] at h <;>
    (subst h; constructor)
  all_goals first
    | rfl
    | trivial
    | (simp [TokenOk] at *; omega)

theorem tokenSeqInv_nil : TokenSeqInv [] := ⟨List.chain'_nil, by simp⟩

theorem tokenSeqInv_singleton {t : Token} (h : TokenOk t) : TokenSeqInv [t] :=
  ⟨List.chain'_singleton t, by simpa⟩

theorem TokenSeqInv.tail {t : Token} {ts : List Token} (h : TokenSeqInv (t :: ts)) :
    TokenSeqInv ts :=
  ⟨h.1.tail, fun x hx => h.2 x (by simp [hx])⟩

theorem TokenSeqInv.head {t : Token} {ts : List Token} (h : TokenSeqInv (t :: ts)) :
    TokenOk t := h.2 t (by simp)

theorem chain'_concat_iff {R : Token → Token → Prop} {l : List Token} {x : Token} :
    List.Chain' R (l ++ [x]) ↔ List.Chain' R l ∧ ∀ y ∈ l.getLast?, R y x := by
  rw [List.chain'_append]
  simp

theorem TokenSeqInv.concat {ts : List Token} {tok : Token} (h : TokenSeqInv ts)
    (htok : TokenOk tok) (hadj : ∀ y ∈ ts.getLast?, AdjOk y tok) :
    TokenSeqInv (ts ++ [tok]) := by
  refine ⟨chain'_concat_iff.mpr ⟨h.1, hadj⟩, ?_⟩
  intro t ht
  rcases List.mem_append.mp ht with h1 | h1
  · exact h.2 t h1
  · simp at h1; subst h1; exact htok

theorem appendWildcard_inv {ts out1 : List Token} {tok : Token} (h : TokenSeqInv ts)
    (hw : isWildcard tok = true) (hok : TokenOk tok)
    (happ : appendWildcardToTokenSequence ts tok = some out1) : TokenSeqInv out1 := by
  unfold appendWildcardToTokenSequence at happ
  cases hts : ts.getLast? with
  | none =>
    rw [hts] at happ
    simp at happ
    subst happ
    exact tokenSeqInv_singleton hok
  | some last =>
    rw [hts] at happ
    obtain ⟨init, rfl⟩ := List.getLast?_eq_some_iff.mp hts
    cases last with
    | Literal ms =>
      simp at happ
      subst happ
      have hres : TokenSeqInv ((init ++ [Token.Literal ms]) ++ [tok]) := by
        refine h.concat hok ?_
        intro y hy
        rw [List.getLast?_concat] at hy
        simp at hy
        subst hy
        exact ⟨by simp [isWildcard], fun hc => by simp [isLiteral_eq_false hw] at hc⟩
      simpa using hres
    | ExactLengthWildcard a =>
      simp only at happ
      cases hm : mergeWildcardTokens (Token.ExactLengthWildcard a) tok with
      | none => rw [hm] at happ; simp at happ
      | some m =>
        rw [hm] at happ
        simp at happ
        subst happ
        have hlast : TokenOk (Token.ExactLengthWildcard a) := h.2 _ (by simp)
        obtain ⟨hmw, hmok⟩ := mergeWildcardTokens_some hlast hok hm
        have hinit : TokenSeqInv init :=
          ⟨(chain'_concat_iff.mp h.1).1, fun x hx => h.2 x (by simp [hx])⟩
        refine hinit.concat hmok ?_
        intro y hy
        have hadj := (chain'_concat_iff.mp h.1).2 y hy
        have : isWildcard y = false := by
          by_contra hc
          exact hadj.1 ⟨by simpa using hc, rfl⟩
        exact ⟨fun hc => by simp [this] at hc, fun hc => by simp [isLiteral_eq_false hmw] at hc⟩
    | MinLengthWildcard a =>
      simp only at happ
      cases hm : mergeWildcardTokens (Token.MinLengthWildcard a) tok with
      | none => rw [hm] at happ; simp at happ
      | some m =>
        rw [hm] at happ
        simp at happ
        subst happ
        have hlast : TokenOk (Token.MinLengthWildcard a) := h.2 _ (by simp)
        obtain ⟨hmw, hmok⟩ := mergeWildcardTokens_some hlast hok hm
        have hinit : TokenSeqInv init :=
          ⟨(chain'_concat_iff.mp h.1).1, fun x hx => h.2 x (by simp [hx])⟩
        refine hinit.concat hmok ?_
        intro y hy
        have hadj := (chain'_concat_iff.mp h.1).2 y hy
        have : isWildcard y = false := by
          by_contra hc
          exact hadj.1 ⟨by simpa using hc, rfl⟩
        exact ⟨fun hc => by simp [this] at hc, fun hc => by simp [isLiteral_eq_false hmw] at hc⟩

theorem appendLiteral_inv {ts : List Token} {lit : List Char} (h : TokenSeqInv ts)
    (hlit : lit ≠ []) : TokenSeqInv (appendLiteralToTokenSequence ts lit) := by
  unfold appendLiteralToTokenSequence
  cases hts : ts.getLast? with
  | none =>
    exact tokenSeqInv_singleton ⟨by simp, by simpa⟩
  | some last =>
    obtain ⟨init, rfl⟩ := List.getLast?_eq_some_iff.mp hts
    cases last with
    | Literal ms =>
      simp only
      rw [List.dropLast_concat]
      have hinit : TokenSeqInv init :=
        ⟨(chain'_concat_iff.mp h.1).1, fun x hx => h.2 x (by simp [hx])⟩
      have hmsok : TokenOk (Token.Literal ms) := h.2 _ (by simp)
      refine hinit.concat ⟨by simp, ?_⟩ ?_
      · intro sl hsl
        rcases List.mem_append.mp hsl with h1 | h1
        · exact hmsok.2 sl h1
        · simp at h1; subst h1; exact hlit
      · intro y hy
        have hadj := (chain'_concat_iff.mp h.1).2 y hy
        refine ⟨fun hc => by simp [isWildcard] at hc, fun hc => ?_⟩
        exact hadj.2 ⟨hc.1, rfl⟩
    | ExactLengthWildcard a =>
      simp only
      refine h.concat ⟨by simp, by simpa⟩ ?_
      intro y hy
      rw [List.getLast?_concat] at hy
      simp at hy
      subst hy
      exact ⟨fun hc => by simp [isWildcard] at hc, fun hc => by simp [isLiteral] at hc⟩
    | MinLengthWildcard a =>
      simp only
      refine h.concat ⟨by simp, by simpa⟩ ?_
      intro y hy
      rw [List.getLast?_concat] at hy
      simp at hy
      subst hy
      exact ⟨fun hc => by simp [isWildcard] at hc, fun hc => by simp [isLiteral] at hc⟩

theorem appendLiteral_getLast (ts : List Token) (lit : List Char) :
    ∃ ms, (appendLiteralToTokenSequence ts lit).getLast? = some (Token.Literal ms) := by
  unfold appendLiteralToTokenSequence
  cases hts : ts.getLast? with
  | none => exact ⟨[lit], rfl⟩
  | some last =>
    cases last with
    | Literal ms => exact ⟨ms ++ [lit], by simp [List.getLast?_concat]⟩
    | ExactLengthWildcard a => exact ⟨[lit], by simp [List.getLast?_concat]⟩
    | MinLengthWildcard a => exact ⟨[lit], by simp [List.getLast?_concat]⟩

theorem byteSlice_ne_nil {a b : Nat} {s w : List Char} (hab : a < b)
    (h : byteSlice a b s = some w) : w ≠ [] := by
  unfold byteSlice at h
  cases hd : byteDrop a s with
  | none => rw [hd] at h; simp at h
  | some t =>
    rw [hd] at h
    simp at h
    have := (byteTake_some h).1
    intro hc
    subst hc
    simp at this
    omega

theorem parseGlobLoop_inv (full : List Char) :
    ∀ (rem : List Char) (i : Nat) (st : ParserState) (out : List Token),
      TokenSeqInv out →
      (∀ start fin, st = ParserState.BorrowedLiteral start fin → start < fin ∧ fin ≤ i) →
      ∀ ts, parseGlobLoop full i rem st out = some (Except.ok ts) → TokenSeqInv ts := by
  intro rem
  induction rem with
  | nil =>
    intro i st out hout hst ts h
    cases st with
    | ExpectNew =>
      simp [parseGlobLoop] at h
      subst h
      exact hout
    | BorrowedLiteral start fin =>
      simp only [parseGlobLoop] at h
      cases hbs : byteSlice start fin full with
      | none => rw [hbs] at h; simp at h
      | some w =>
        rw [hbs] at h
        simp at h
        subst h
        exact appendLiteral_inv hout (byteSlice_ne_nil (hst start fin rfl).1 hbs)
    | ExpectEscapedCharacter => simp [parseGlobLoop] at h
  | cons c cs ih =>
    intro i st out hout hst ts h
    simp only [parseGlobLoop] at h
    by_cases hc1 : c = '*' ∨ c = '?'
    · rw [if_pos hc1] at h
      cases st with
      | ExpectNew =>
        dsimp only at h
        cases happ : appendWildcardToTokenSequence out (wildcardForCharacter c) with
        | none => rw [happ] at h; simp at h
        | some out1 =>
          rw [happ] at h
          exact ih (i+1) _ out1
            (appendWildcard_inv hout (wildcardForCharacter_isWildcard c)
              (wildcardForCharacter_tokenOk c) happ) (by simp) ts h
      | BorrowedLiteral start fin =>
        dsimp only at h
        cases hbs : byteSlice start fin full with
        | none => rw [hbs] at h; simp at h
        | some w =>
          rw [hbs] at h
          have hw : w ≠ [] := byteSlice_ne_nil (hst start fin rfl).1 hbs
          have h1 : TokenSeqInv (appendLiteralToTokenSequence out w) :=
            appendLiteral_inv hout hw
          obtain ⟨ms, hlast⟩ := appendLiteral_getLast out w
          have h2 : TokenSeqInv
              (appendLiteralToTokenSequence out w ++ [wildcardForCharacter c]) := by
            refine h1.concat (wildcardForCharacter_tokenOk c) ?_
            intro y hy
            rw [hlast] at hy
            simp at hy
            subst hy
            refine ⟨fun hcc => ?_, fun hcc => ?_⟩
            · simp [isWildcard] at hcc
            · simp [isLiteral_eq_false (wildcardForCharacter_isWildcard c)] at hcc
          exact ih (i+1) _ _ h2 (by simp) ts h
      | ExpectEscapedCharacter =>
        dsimp only at h
        refine ih (i+1) _ out hout ?_ ts h
        intro s f hsf
        injection hsf with h1 h2
        omega
    · rw [if_neg hc1] at h
      by_cases hc2 : c = '\\'
      · rw [if_pos hc2] at h
        cases st with
        | ExpectNew =>
          dsimp only at h
          exact ih (i+1) _ out hout (by simp) ts h
        | BorrowedLiteral start fin =>
          dsimp only at h
          cases hbs : byteSlice start fin full with
          | none => rw [hbs] at h; simp at h
          | some w =>
            rw [hbs] at h
            exact ih (i+1) _ _
              (appendLiteral_inv hout (byteSlice_ne_nil (hst start fin rfl).1 hbs))
              (by simp) ts h
        | ExpectEscapedCharacter =>
          dsimp only at h
          refine ih (i+1) _ out hout ?_ ts h
          intro s f hsf
          injection hsf with h1 h2
          omega
      · rw [if_neg hc2] at h
        cases st with
        | ExpectNew =>
          dsimp only at h
          refine ih (i+1) _ out hout ?_ ts h
          intro s f hsf
          injection hsf with h1 h2
          omega
        | BorrowedLiteral start fin =>
          dsimp only at h
          have hsf0 := hst start fin rfl
          refine ih (i+1) _ out hout ?_ ts h
          intro s f hsf
          injection hsf with h1 h2
          omega
        | ExpectEscapedCharacter =>
          dsimp only at h
          cases hbs : byteSlice (i-1) (i+1) full with
          | none => rw [hbs] at h; simp at h
          | some w => rw [hbs] at h; simp at h

theorem parseGlobString_inv {s : List Char} {ts : List Token}
    (h : parseGlobString s = some (Except.ok ts)) : TokenSeqInv ts :=
  parseGlobLoop_inv s s 0 ParserState.ExpectNew [] tokenSeqInv_nil (by simp) ts h

theorem matchesPartially_empty_iff {ts : List Token} (h : TokenSeqInv ts) :
    tokenSequenceMatchesPartially ts [] = some true ↔
      ∀ t ∈ ts, t = Token.MinLengthWildcard 0 := by
  induction ts with
  | nil => simp [tokenSequenceMatchesPartially]
  | cons t rest ih =>
    have hrest := ih h.tail
    cases t with
    | ExactLengthWildcard n =>
      have hn : 0 < n := h.head
      simp only [tokenSequenceMatchesPartially]
      rw [if_neg (by simp; omega)]
      constructor
      · intro hc; simp at hc
      · intro hall
        have := hall (Token.ExactLengthWildcard n) (by simp)
        simp at this
    | MinLengthWildcard n =>
      cases n with
      | zero =>
        simp only [tokenSequenceMatchesPartially]
        rw [if_pos (by simp)]
        rw [show byteDrop 0 [] = some [] from rfl]
        rw [hrest]
        simp
      | succ m =>
        simp only [tokenSequenceMatchesPartially]
        rw [if_neg (by simp)]
        constructor
        · intro hc; simp at hc
        · intro hall
          have := hall (Token.MinLengthWildcard (m+1)) (by simp)
          simp at this
    | Literal ms =>
      obtain ⟨hms, hsl⟩ := (h.head : TokenOk (Token.Literal ms))
      obtain ⟨sl, ms1, rfl⟩ : ∃ sl ms1, ms = sl :: ms1 := by
        cases ms with
        | nil => simp at hms
        | cons a l => exact ⟨a, l, rfl⟩
      have hslne : sl ≠ [] := hsl sl (by simp)
      have hpos : 0 < utf8Len sl :=
        Nat.pos_of_ne_zero (fun h0 => hslne (utf8Len_eq_zero.mp h0))
      have hanchor : (getNextNonEmptySlice (sl :: ms1) 0).map (·.2) = some sl := by
        unfold getNextNonEmptySlice findNonEmptyFrom
        simp [hpos]
      simp only [tokenSequenceMatchesPartially]
      rw [hanchor]
      rw [show tryOccurrences (sl :: ms1) (some sl) []
            (tokenSequenceMatchesAtStart rest) (utf8Len ([] : List Char) + 2) 0 =
          some false from rfl]
      constructor
      · intro hc; simp at hc
      · intro hall
        have := hall (Token.Literal (sl :: ms1)) (by simp)
        simp at this

/-! ## Claim C2 -/

/-- Claim C2: for every successfully parsed pattern, matching against the empty
string succeeds exactly when every token is a `MinLengthWildcard 0` (the
pattern consists only of `*` characters, possibly none). -/
theorem C2_empty_candidate_iff_all_star (s : List Char) (ts : List Token)
    (h : parseGlobString s = some (Except.ok ts)) :
    (matchesPartially ts [] = some true ↔ ∀ t ∈ ts, t = Token.MinLengthWildcard 0) :=
  matchesPartially_empty_iff (parseGlobString_inv h)

/-- Witness for C2 at the concrete pattern `"*"`. -/
theorem C2_empty_candidate_iff_all_star_witness :
    parseGlobString "*".toList = some (Except.ok [Token.MinLengthWildcard 0]) ∧
    (matchesPartially [Token.MinLengthWildcard 0] [] = some true ↔
      ∀ t ∈ [Token.MinLengthWildcard 0], t = Token.MinLengthWildcard 0) :=
  ⟨rfl, C2_empty_candidate_iff_all_star "*".toList [Token.MinLengthWildcard 0] rfl⟩

/-! ## Claim C8 -/

/-- Claim C8: a successfully parsed token sequence never contains two adjacent
wildcards nor two adjacent literals. -/
theorem C8_no_adjacent_same_category (s : List Char) (ts : List Token)
    (h : parseGlobString s = some (Except.ok ts)) : List.Chain' AdjOk ts :=
  (parseGlobString_inv h).1

/-- Witness for C8 at the concrete pattern `"a*b?c"`. -/
theorem C8_no_adjacent_same_category_witness :
    parseGlobString "a*b?c".toList = some (Except.ok
      [Token.Literal [['a']], Token.MinLengthWildcard 0, Token.Literal [['b']],
       Token.ExactLengthWildcard 1, Token.Literal [['c']]]) ∧
    List.Chain' AdjOk
      [Token.Literal [['a']], Token.MinLengthWildcard 0, Token.Literal [['b']],
       Token.ExactLengthWildcard 1, Token.Literal [['c']]] :=
  ⟨rfl, C8_no_adjacent_same_category "a*b?c".toList _ rfl⟩

/-! ## Claim C10 -/

/-- Claim C10: every literal token of a successfully parsed pattern has a
fragment buffer of combined length at least 1, and consequently its occurrence
iterator has a non-empty anchor slice, so the degenerate empty-literal
enumeration branch is never taken when matching a parsed pattern. -/
theorem C10_parsed_literals_nonempty (s : List Char) (ts : List Token)
    (h : parseGlobString s = some (Except.ok ts)) :
    ∀ ms, Token.Literal ms ∈ ts →
      1 ≤ getCombinedLength ms ∧ getNextNonEmptySlice ms 0 ≠ none := by
  intro ms hms
  obtain ⟨hne, hsl⟩ := ((parseGlobString_inv h).2 _ hms : TokenOk (Token.Literal ms))
  obtain ⟨sl, ms1, rfl⟩ : ∃ sl ms1, ms = sl :: ms1 := by
    cases ms with
    | nil => simp at hne
    | cons a l => exact ⟨a, l, rfl⟩
  have hpos : 0 < utf8Len sl :=
    Nat.pos_of_ne_zero (fun h0 => hsl sl (by simp) (utf8Len_eq_zero.mp h0))
  constructor
  · simp [getCombinedLength]
    omega
  · unfold getNextNonEmptySlice findNonEmptyFrom
    simp [hpos]

/-- Witness for C10 at the concrete pattern `"ab"`. -/
theorem C10_parsed_literals_nonempty_witness :
    parseGlobString "ab".toList = some (Except.ok [Token.Literal [['a', 'b']]]) ∧
    1 ≤ getCombinedLength [['a', 'b']] ∧ getNextNonEmptySlice [['a', 'b']] 0 ≠ none :=
  ⟨rfl, C10_parsed_literals_nonempty "ab".toList [Token.Literal [['a', 'b']]] rfl
    [['a', 'b']] (by simp)⟩

/-! ## Claim C4: escape-error reporting -/

theorem byteSlice_some_of_oneByte {l : List Char} (h : OneByte l) {a b : Nat}
    (ha : a ≤ l.length) (hb : b ≤ l.length) : ∃ w, byteSlice a b l = some w := by
  unfold byteSlice
  rw [h.byteDrop_eq, if_pos ha]
  have hdrop : OneByte (l.drop a) := h.drop a
  rw [Option.some_bind, hdrop.byteTake_eq, if_pos (by simp; omega)]
  exact ⟨_, rfl⟩

theorem byteSlice_pair_of_oneByte {l : List Char} (h : OneByte l) {a : Nat} {x y : Char}
    (hx : l[a]? = some x) (hy : l[a+1]? = some y) : byteSlice a (a+2) l = some [x, y] := by
  have hlt : a + 1 < l.length := by
    rcases List.getElem?_eq_some_iff.mp hy with ⟨hh, -⟩
    omega
  obtain ⟨rest, hrest⟩ : ∃ rest, l.drop a = x :: y :: rest := by
    have h0 : (l.drop a)[0]? = some x := by rw [List.getElem?_drop]; simpa using hx
    have h1 : (l.drop a)[1]? = some y := by rw [List.getElem?_drop]; simpa using hy
    cases hd : l.drop a with
    | nil => rw [hd] at h0; simp at h0
    | cons z t =>
      rw [hd] at h0 h1
      simp at h0
      cases t with
      | nil => simp at h1
      | cons w t2 =>
        simp at h1
        subst h0
        subst h1
        exact ⟨t2, rfl⟩
  unfold byteSlice
  rw [h.byteDrop_eq, if_pos (by omega), Option.some_bind]
  have hdrop : OneByte (l.drop a) := h.drop a
  rw [hdrop.byteTake_eq, if_pos (by simp; omega)]
  rw [hrest]
  simp

theorem appendWildcard_isSome (ts : List Token) {tok : Token} (h : isWildcard tok = true) :
    ∃ out1, appendWildcardToTokenSequence ts tok = some out1 := by
  unfold appendWildcardToTokenSequence
  cases hts : ts.getLast? with
  | none => exact ⟨_, rfl⟩
  | some last =>
    cases last with
    | Literal ms => exact ⟨_, rfl⟩
    | ExactLengthWildcard a =>
      cases tok with
      | Literal ms => simp [isWildcard] at h
      | ExactLengthWildcard b => exact ⟨_, rfl⟩
      | MinLengthWildcard b => exact ⟨_, rfl⟩
    | MinLengthWildcard a =>
      cases tok with
      | Literal ms => simp [isWildcard] at h
      | ExactLengthWildcard b => exact ⟨_, rfl⟩
      | MinLengthWildcard b => exact ⟨_, rfl⟩

theorem specEscapeError_cons_ne {i : Nat} {c : Char} {rest : List Char} (h : c ≠ '\\') :
    specEscapeError i (c :: rest) = specEscapeError (i+1) rest := by
  conv_lhs => rw [specEscapeError.eq_def]
  dsimp only
  rw [if_neg h]

theorem specEscapeError_cons_bs (i : Nat) (rest : List Char) :
    specEscapeError i ('\\' :: rest) =
      (match rest with
       | [] => some (GlobParseError.UnterminatedEscapeSequence i)
       | d :: rest1 =>
         if d = '*' ∨ d = '?' ∨ d = '\\' then specEscapeError (i+2) rest1
         else some (GlobParseError.UnknownEscapeSequence i ['\\', d])) := by
  conv_lhs => rw [specEscapeError.eq_def]
  dsimp only
  rw [if_pos rfl]

theorem parseGlobLoop_errPart (full : List Char) (hfull : OneByte full) :
    ∀ (rem : List Char) (i : Nat) (st : ParserState) (out : List Token),
      rem = full.drop i → i + rem.length = full.length →
      (st = ParserState.ExpectEscapedCharacter → 1 ≤ i ∧ full[i-1]? = some '\\') →
      (∀ start fin, st = ParserState.BorrowedLiteral start fin → start < fin ∧ fin ≤ i) →
      Option.map errPart (parseGlobLoop full i rem st out) = some (specEscapeCont st i rem) := by
  intro rem
  induction rem with
  | nil =>
    intro i st out hrem hlen hesc hbl
    cases st with
    | ExpectNew => simp [parseGlobLoop, specEscapeCont, specEscapeError, errPart]
    | BorrowedLiteral start fin =>
      obtain ⟨hsf, hfi⟩ := hbl start fin rfl
      have hi : i ≤ full.length := by simp at hlen; omega
      obtain ⟨w, hw⟩ := byteSlice_some_of_oneByte hfull
        (show start ≤ full.length by omega) (show fin ≤ full.length by omega)
      simp [parseGlobLoop, hw, specEscapeCont, specEscapeError, errPart]
    | ExpectEscapedCharacter =>
      obtain ⟨hi, hbs⟩ := hesc rfl
      have hulen : utf8Len full = full.length := hfull.utf8Len_eq
      simp only [parseGlobLoop, specEscapeCont, Option.map_some, errPart]
      have heq : utf8Len full - 1 = i - 1 := by simp at hlen; omega
      rw [heq]
      simp [errPart]
  | cons c cs ih =>
    intro i st out hrem hlen hesc hbl
    have hc : full[i]? = some c := by
      have h0 := List.getElem?_drop full i 0
      rw [← hrem] at h0
      simpa using h0.symm
    have hcs : cs = full.drop (i+1) := by
      rw [← List.tail_drop, ← hrem]
      rfl
    have hlen1 : (i+1) + cs.length = full.length := by
      simp at hlen; omega
    simp only [parseGlobLoop]
    by_cases hc1 : c = '*' ∨ c = '?'
    · rw [if_pos hc1]
      have hcne : c ≠ '\\' := by
        rcases hc1 with rfl | rfl <;> decide
      cases st with
      | ExpectNew =>
        obtain ⟨out1, hout1⟩ :=
          appendWildcard_isSome out (wildcardForCharacter_isWildcard c)
        dsimp only
        rw [hout1]
        rw [ih (i+1) ParserState.ExpectNew out1 hcs hlen1 (by intro hcon; cases hcon)
          (by intro s0 f0 hcon; cases hcon)]
        simp only [specEscapeCont]
        rw [specEscapeError_cons_ne hcne]
      | BorrowedLiteral start fin =>
        obtain ⟨hsf, hfi⟩ := hbl start fin rfl
        obtain ⟨w, hw⟩ := byteSlice_some_of_oneByte hfull
          (show start ≤ full.length by omega) (show fin ≤ full.length by omega)
        dsimp only
        rw [hw]
        rw [ih (i+1) ParserState.ExpectNew _ hcs hlen1 (by intro hcon; cases hcon)
          (by intro s0 f0 hcon; cases hcon)]
        simp only [specEscapeCont]
        rw [specEscapeError_cons_ne hcne]
      | ExpectEscapedCharacter =>
        dsimp only
        rw [ih (i+1) (ParserState.BorrowedLiteral i (i+1)) out hcs hlen1
          (by intro hcon; cases hcon)
          (by intro s0 f0 hcon; injection hcon with e1 e2; omega)]
        simp only [specEscapeCont]
        rw [if_pos (by tauto)]
    · rw [if_neg hc1]
      by_cases hc2 : c = '\\'
      · rw [if_pos hc2]
        cases st with
        | ExpectNew =>
          dsimp only
          rw [ih (i+1) ParserState.ExpectEscapedCharacter out hcs hlen1
            (by intro hcon; refine ⟨by omega, ?_⟩; simpa [hc2] using hc)
            (by intro s0 f0 hcon; cases hcon)]
          subst hc2
          simp only [specEscapeCont]
          rw [specEscapeError_cons_bs]
          cases cs with
          | nil => simp
          | cons d rest1 => simp
        | BorrowedLiteral start fin =>
          obtain ⟨hsf, hfi⟩ := hbl start fin rfl
          obtain ⟨w, hw⟩ := byteSlice_some_of_oneByte hfull
            (show start ≤ full.length by omega) (show fin ≤ full.length by omega)
          dsimp only
          rw [hw]
          rw [ih (i+1) ParserState.ExpectEscapedCharacter _ hcs hlen1
            (by intro hcon; refine ⟨by omega, ?_⟩; simpa [hc2] using hc)
            (by intro s0 f0 hcon; cases hcon)]
          subst hc2
          simp only [specEscapeCont]
          rw [specEscapeError_cons_bs]
          cases cs with
          | nil => simp
          | cons d rest1 => simp
        | ExpectEscapedCharacter =>
          dsimp only
          rw [ih (i+1) (ParserState.BorrowedLiteral i (i+1)) out hcs hlen1
            (by intro hcon; cases hcon)
            (by intro s0 f0 hcon; injection hcon with e1 e2; omega)]
          subst hc2
          simp only [specEscapeCont]
          rw [if_pos (by tauto)]
      · rw [if_neg hc2]
        cases st with
        | ExpectNew =>
          dsimp only
          rw [ih (i+1) (ParserState.BorrowedLiteral i (i+1)) out hcs hlen1
            (by intro hcon; cases hcon)
            (by intro s0 f0 hcon; injection hcon with e1 e2; omega)]
          simp only [specEscapeCont]
          rw [specEscapeError_cons_ne hc2]
        | BorrowedLiteral start fin =>
          obtain ⟨hsf, hfi⟩ := hbl start fin rfl
          dsimp only
          rw [ih (i+1) (ParserState.BorrowedLiteral start (i+1)) out hcs hlen1
            (by intro hcon; cases hcon)
            (by intro s0 f0 hcon; injection hcon with e1 e2; omega)]
          simp only [specEscapeCont]
          rw [specEscapeError_cons_ne hc2]
        | ExpectEscapedCharacter =>
          obtain ⟨hi, hbs⟩ := hesc rfl
          have hslice : byteSlice (i-1) (i-1+2) full = some ['\\', c] := by
            refine byteSlice_pair_of_oneByte hfull hbs ?_
            have : i - 1 + 1 = i := by omega
            rw [this]
            exact hc
          have hidx : i - 1 + 2 = i + 1 := by omega
          rw [hidx] at hslice
          dsimp only
          rw [hslice]
          simp only [specEscapeCont]
          rw [if_neg (by tauto)]
          simp [errPart]

/-- Claim C4 (amended to patterns of single-byte characters): parsing reports
exactly the first escape error of the pattern — an unescaped escape character
followed by a character other than the two wildcard characters or the escape
character itself yields `UnknownEscapeSequence` carrying the escape character's
index and the two-character slice, a dangling escape character at the end
yields `UnterminatedEscapeSequence` carrying its index, and a pattern without
escape errors parses without error (returning a token sequence, never a
partial error); concretely, `"\n"` fails with `UnknownEscapeSequence 0 "\n"`
and `"abc\"` fails with `UnterminatedEscapeSequence 3`. -/
theorem C4_escape_error_reporting (s : List Char) (hs : OneByte s) :
    Option.map errPart (parseGlobString s) = some (specEscapeError 0 s) ∧
    parseGlobString "\\n".toList =
      some (Except.error (GlobParseError.UnknownEscapeSequence 0 ['\\', 'n'])) ∧
    parseGlobString "abc\\".toList =
      some (Except.error (GlobParseError.UnterminatedEscapeSequence 3)) := by
  refine ⟨?_, rfl, rfl⟩
  have h := parseGlobLoop_errPart s hs s 0 ParserState.ExpectNew [] (by simp) (by simp)
    (by intro hcon; cases hcon) (by intro s0 f0 hcon; cases hcon)
  simpa [specEscapeCont, parseGlobString] using h

/-- Witness for C4 at the concrete pattern `"\n"`. -/
theorem C4_escape_error_reporting_witness :
    OneByte "\\n".toList ∧
    Option.map errPart (parseGlobString "\\n".toList) =
      some (specEscapeError 0 "\\n".toList) :=
  ⟨by decide, (C4_escape_error_reporting "\\n".toList (by decide)).1⟩

/-- Counterexample for C4 as stated: the pattern `"é\x"` contains an unescaped
escape character (at character index 1) followed by `'x'`, so the claim says
parsing fails with an `UnknownEscapeSequence` error; instead the parser panics
(it slices the pattern at byte offset 1, inside the two-byte `'é'`, when
flushing the literal run), returning no error value at all. -/
theorem C4_counterexample_multibyte_pattern_panics :
    parseGlobString ['é', '\\', 'x'] = none := rfl

/-! ## Claim C3: the occurrence iterator -/

theorem findPrefixPos_none {p s : List Char} (h : findPrefixPos p s = none) :
    ∀ j, ¬ p <+: s.drop j := by
  induction s with
  | nil =>
    intro j hj
    simp only [findPrefixPos] at h
    rw [List.drop_nil] at hj
    rw [if_pos (List.isPrefixOf_iff_prefix.mpr hj)] at h
    cases h
  | cons c s ih =>
    intro j hj
    simp only [findPrefixPos] at h
    by_cases hp : p.isPrefixOf (c :: s)
    · rw [if_pos hp] at h; cases h
    · rw [if_neg hp] at h
      simp only [Option.map_eq_none'] at h
      cases j with
      | zero =>
        rw [List.drop_zero] at hj
        exact hp (List.isPrefixOf_iff_prefix.mpr hj)
      | succ j0 =>
        exact ih h j0 (by simpa using hj)

theorem findPrefixPos_some {p s : List Char} {j : Nat} (h : findPrefixPos p s = some j) :
    p <+: s.drop j ∧ j ≤ s.length ∧ ∀ j0 < j, ¬ p <+: s.drop j0 := by
  induction s generalizing j with
  | nil =>
    simp only [findPrefixPos] at h
    split at h
    · rename_i hp
      simp at h
      subst h
      exact ⟨List.isPrefixOf_iff_prefix.mp hp, by simp, by omega⟩
    · cases h
  | cons c s ih =>
    simp only [findPrefixPos] at h
    by_cases hp : p.isPrefixOf (c :: s)
    · rw [if_pos hp] at h
      simp at h
      subst h
      exact ⟨List.isPrefixOf_iff_prefix.mp hp, by simp, by omega⟩
    · rw [if_neg hp] at h
      simp only [Option.map_eq_some'] at h
      obtain ⟨j0, hj0, rfl⟩ := h
      obtain ⟨h1, h2, h3⟩ := ih hj0
      refine ⟨by simpa using h1, by simp; omega, ?_⟩
      intro j1 hj1
      cases j1 with
      | zero =>
        rw [List.drop_zero]
        exact fun hc => hp (List.isPrefixOf_iff_prefix.mpr hc)
      | succ j2 =>
        have := h3 j2 (by omega)
        simpa using this

theorem findNonEmptyFrom_some {sls : List (List Char)} {j k : Nat} {a : List Char}
    (h : findNonEmptyFrom sls j = some (k, a)) : 0 < utf8Len a := by
  induction sls generalizing j with
  | nil => cases h
  | cons sl rest ih =>
    simp only [findNonEmptyFrom] at h
    split at h
    · simp at h
      obtain ⟨-, rfl⟩ := h
      assumption
    · exact ih h

theorem findNonEmptyFrom_none {sls : List (List Char)} {j : Nat}
    (h : findNonEmptyFrom sls j = none) : ∀ sl ∈ sls, utf8Len sl = 0 := by
  induction sls generalizing j with
  | nil => simp
  | cons sl rest ih =>
    simp only [findNonEmptyFrom] at h
    split at h
    · cases h
    · rename_i hsl
      intro x hx
      rcases List.mem_cons.mp hx with rfl | hx1
      · omega
      · exact ih h x hx1

theorem getCombinedLength_eq_zero_iff (ms : MultiSlice) :
    getCombinedLength ms = 0 ↔ ∀ sl ∈ ms, utf8Len sl = 0 := by
  unfold getCombinedLength
  induction ms with
  | nil => simp
  | cons sl rest ih => simp [ih]

theorem matchesStringStartAux_total {s : List Char} (hOne : OneByte s) :
    ∀ (sls : List (List Char)) (i : Nat), i ≤ s.length →
      ∃ b, matchesStringStartAux sls i s = some b := by
  intro sls
  induction sls with
  | nil => exact fun i _ => ⟨true, rfl⟩
  | cons sl rest ih =>
    intro i hi
    simp only [matchesStringStartAux]
    split
    · exact ⟨false, rfl⟩
    · rename_i hlen
      have hus : utf8Len s = s.length := hOne.utf8Len_eq
      have hle : i + utf8Len sl ≤ s.length := by omega
      have hslice : byteSlice i (i + utf8Len sl) s = some ((s.drop i).take (utf8Len sl)) := by
        unfold byteSlice
        rw [hOne.byteDrop_eq, if_pos (by omega), Option.some_bind]
        have harg : i + utf8Len sl - i = utf8Len sl := by omega
        rw [harg, (hOne.drop i).byteTake_eq, if_pos (by simp; omega)]
      rw [hslice]
      dsimp only
      split
      · exact ⟨false, rfl⟩
      · exact ih (i + utf8Len sl) hle

theorem matchesStringStartAux_anchor_prefix {sls : List (List Char)} {j k : Nat}
    {anchor : List Char} (hfind : findNonEmptyFrom sls j = some (k, anchor)) :
    ∀ s, matchesStringStartAux sls 0 s = some true → anchor <+: s := by
  induction sls generalizing j with
  | nil => cases hfind
  | cons sl rest ih =>
    intro s hm
    simp only [findNonEmptyFrom] at hfind
    simp only [matchesStringStartAux] at hm
    split at hfind
    · simp at hfind
      obtain ⟨-, ha⟩ := hfind
      split at hm
      · cases hm
      · rw [← ha]
        cases hslice : byteSlice 0 (0 + utf8Len sl) s with
        | none => rw [hslice] at hm; cases hm
        | some w =>
          rw [hslice] at hm
          dsimp only at hm
          split at hm
          · cases hm
          · rename_i hne
            have hw : sl = w := by
              by_contra hc
              exact hne hc
            unfold byteSlice at hslice
            rw [byteDrop_zero, Option.some_bind] at hslice
            have h0 : 0 + utf8Len sl - 0 = utf8Len sl := by omega
            rw [h0] at hslice
            obtain ⟨-, t, -, hsplit⟩ := byteTake_some hslice
            rw [hsplit, hw]
            exact ⟨t, rfl⟩
    · rename_i hempty
      have hsl : sl = [] := utf8Len_eq_zero.mp (by omega)
      subst hsl
      split at hm
      · simp at *
      · rw [show byteSlice 0 (0 + utf8Len ([] : List Char)) s = some [] from by
            simp [byteSlice, byteTake]] at hm
        dsimp only at hm
        rw [if_neg (by simp)] at hm
        have h0 : (0 : Nat) + utf8Len ([] : List Char) = 0 := by simp
        rw [h0] at hm
        exact ih hfind s hm

theorem matchesStringStartAux_nil_of_anchor {sls : List (List Char)} {j k : Nat}
    {anchor : List Char} (hfind : findNonEmptyFrom sls j = some (k, anchor)) :
    matchesStringStartAux sls 0 [] = some false := by
  induction sls generalizing j with
  | nil => cases hfind
  | cons sl rest ih =>
    simp only [findNonEmptyFrom] at hfind
    simp only [matchesStringStartAux]
    split at hfind
    · rename_i hpos
      simp at hfind
      obtain ⟨-, ha⟩ := hfind
      rw [if_pos (by simp; omega)]
    · rename_i hempty
      have hsl : sl = [] := utf8Len_eq_zero.mp (by omega)
      subst hsl
      rw [if_neg (by simp)]
      rw [show byteSlice 0 (0 + utf8Len ([] : List Char)) [] = some [] from by
          simp [byteSlice, byteTake]]
      dsimp only
      rw [if_neg (by simp)]
      have h0 : (0 : Nat) + utf8Len ([] : List Char) = 0 := by simp
      rw [h0]
      exact ih hfind

theorem matchesStringStartAux_all_empty {sls : List (List Char)} {j : Nat}
    (hfind : findNonEmptyFrom sls j = none) :
    ∀ s, matchesStringStartAux sls 0 s = some true := by
  induction sls generalizing j with
  | nil => intro s; rfl
  | cons sl rest ih =>
    intro s
    simp only [findNonEmptyFrom] at hfind
    split at hfind
    · cases hfind
    · rename_i hempty
      have hsl : sl = [] := utf8Len_eq_zero.mp (by omega)
      subst hsl
      simp only [matchesStringStartAux]
      rw [if_neg (by simp)]
      rw [show byteSlice 0 (0 + utf8Len ([] : List Char)) s = some [] from by
          simp [byteSlice, byteTake]]
      dsimp only
      rw [if_neg (by simp)]
      have h0 : (0 : Nat) + utf8Len ([] : List Char) = 0 := by simp
      rw [h0]
      exact ih hfind s

theorem OneByte.take {s : List Char} (h : OneByte s) (n : Nat) : OneByte (s.take n) :=
  fun c hc => h c (List.mem_of_mem_take hc)

theorem occursAtB_true_iff {ms : MultiSlice} {t : List Char} (hOne : OneByte t) (i : Nat) :
    occursAtB ms t i = true ↔
      i ≤ t.length ∧ matchesStringStart ms (t.drop i) = some true := by
  unfold occursAtB
  rw [hOne.byteDrop_eq]
  by_cases hi : i ≤ t.length
  · simp [hi]
  · simp [hi]

theorem occursAtB_false {ms : MultiSlice} {t : List Char} (hOne : OneByte t) {i : Nat}
    (h : ¬(i ≤ t.length ∧ matchesStringStart ms (t.drop i) = some true)) :
    occursAtB ms t i = false := by
  rw [Bool.eq_false_iff]
  intro hc
  exact h ((occursAtB_true_iff hOne i).mp hc)

theorem filter_range_cons_of_first {occ : Nat → Bool} {pos n : Nat} (hpos : pos < n)
    (hocc : occ pos = true) :
    (List.range n).filter (fun i => decide (pos ≤ i) && occ i) =
      pos :: (List.range n).filter (fun i => decide (pos + 1 ≤ i) && occ i) := by
  induction n with
  | zero => omega
  | succ m ih =>
    rw [List.range_succ, List.filter_append, List.filter_append]
    by_cases hp : pos < m
    · rw [ih hp]
      rw [List.filter_singleton, List.filter_singleton]
      have h1 : decide (pos ≤ m) = true := by simp; omega
      have h2 : decide (pos + 1 ≤ m) = true := by simp; omega
      rw [h1, h2]
      simp [List.cons_append]
    · have hpm : pos = m := by omega
      subst hpm
      have h1 : (List.range pos).filter (fun i => decide (pos ≤ i) && occ i) = [] := by
        rw [List.filter_eq_nil_iff]
        intro a ha
        rw [List.mem_range] at ha
        simp
        intro hc
        omega
      have h2 : (List.range pos).filter (fun i => decide (pos + 1 ≤ i) && occ i) = [] := by
        rw [List.filter_eq_nil_iff]
        intro a ha
        rw [List.mem_range] at ha
        simp
        intro hc
        omega
      rw [h1, h2, List.filter_singleton, List.filter_singleton]
      simp [hocc]

theorem nextOccAux_spec {ms : MultiSlice} {anchor t : List Char} {k : Nat}
    (hOne : OneByte t) (hfind : findNonEmptyFrom ms 0 = some (k, anchor)) :
    ∀ fuel cur, utf8Len t - cur < fuel →
      (nextOccAux ms anchor t fuel cur = some none ∧
        ∀ i, cur ≤ i → occursAtB ms t i = false) ∨
      (∃ pos, nextOccAux ms anchor t fuel cur = some (some (pos, pos + 1)) ∧
        cur ≤ pos ∧ pos < t.length ∧ occursAtB ms t pos = true ∧
        ∀ i, cur ≤ i → i < pos → occursAtB ms t i = false) := by
  have hanchorpos : 0 < utf8Len anchor := findNonEmptyFrom_some hfind
  have hanchne : anchor ≠ [] := fun hc => by rw [hc] at hanchorpos; simp at hanchorpos
  have hus : utf8Len t = t.length := hOne.utf8Len_eq
  intro fuel
  induction fuel with
  | zero => intro cur h; omega
  | succ f ih =>
    intro cur hcur
    simp only [nextOccAux]
    by_cases hlt : cur < utf8Len t
    case neg =>
      rw [if_neg hlt]
      left
      refine ⟨rfl, ?_⟩
      intro i hi
      refine occursAtB_false hOne ?_
      rintro ⟨hil, hmss⟩
      have hieq : i = t.length := by omega
      rw [hieq, List.drop_length] at hmss
      rw [show matchesStringStart ms [] = matchesStringStartAux ms 0 [] from rfl] at hmss
      rw [matchesStringStartAux_nil_of_anchor hfind] at hmss
      cases hmss
    case pos =>
      rw [if_pos hlt]
      rw [hOne.byteDrop_eq, if_pos (by omega)]
      dsimp only
      unfold strFind
      cases hfp : findPrefixPos anchor (t.drop cur) with
      | none =>
        dsimp only [Option.map_none']
        left
        refine ⟨rfl, ?_⟩
        intro i hi
        refine occursAtB_false hOne ?_
        rintro ⟨hil, hmss⟩
        have hpref : anchor <+: t.drop i :=
          matchesStringStartAux_anchor_prefix hfind _ hmss
        have hnone := findPrefixPos_none hfp (i - cur)
        rw [List.drop_drop] at hnone
        have heq : cur + (i - cur) = i := by omega
        rw [heq] at hnone
        exact hnone hpref
      | some j =>
        dsimp only [Option.map_some']
        obtain ⟨hjpref, hjle, hjmin⟩ := findPrefixPos_some hfp
        rw [List.length_drop] at hjle
        have hrel : utf8Len ((t.drop cur).take j) = j := by
          rw [((hOne.drop cur).take j).utf8Len_eq]
          simp
          omega
        rw [hrel]
        rw [List.drop_drop] at hjpref
        have hdropne : t.drop (cur + j) ≠ [] := by
          intro hc
          rw [hc] at hjpref
          exact hanchne (List.prefix_nil.mp hjpref)
        have habslt : cur + j < t.length := by
          by_contra hc
          exact hdropne (List.drop_eq_nil_of_le (by omega))
        rw [hOne.byteDrop_eq, if_pos (by omega)]
        dsimp only
        obtain ⟨b, hb⟩ := matchesStringStartAux_total (hOne.drop (cur + j)) ms 0 (by simp)
        rw [show matchesStringStart ms (t.drop (cur + j)) =
            matchesStringStartAux ms 0 (t.drop (cur + j)) from rfl, hb]
        have hminpref : ∀ i, cur ≤ i → i < cur + j → occursAtB ms t i = false := by
          intro i h1 h2
          refine occursAtB_false hOne ?_
          rintro ⟨hil, hmss⟩
          have hpref : anchor <+: t.drop i :=
            matchesStringStartAux_anchor_prefix hfind _ hmss
          have hmin := hjmin (i - cur) (by omega)
          rw [List.drop_drop] at hmin
          have heq : cur + (i - cur) = i := by omega
          rw [heq] at hmin
          exact hmin hpref
        cases b with
        | true =>
          dsimp only
          right
          refine ⟨cur + j, rfl, by omega, habslt, ?_, hminpref⟩
          rw [occursAtB_true_iff hOne]
          exact ⟨by omega, hb⟩
        | false =>
          dsimp only
          rcases ih (cur + j + 1) (by omega) with ⟨hn, hall⟩ | ⟨pos, hn, hge, hlt2, hocc, hmin⟩
          · left
            refine ⟨hn, ?_⟩
            intro i hi
            by_cases h1 : i < cur + j
            · exact hminpref i hi h1
            · by_cases h2 : i = cur + j
              · subst h2
                refine occursAtB_false hOne ?_
                rintro ⟨-, hmss⟩
                rw [show matchesStringStart ms (t.drop (cur + j)) =
                    matchesStringStartAux ms 0 (t.drop (cur + j)) from rfl, hb] at hmss
                cases hmss
              · exact hall i (by omega)
          · right
            refine ⟨pos, hn, by omega, hlt2, hocc, ?_⟩
            intro i h1 h2
            by_cases h3 : i < cur + j
            · exact hminpref i h1 h3
            · by_cases h4 : i = cur + j
              · subst h4
                refine occursAtB_false hOne ?_
                rintro ⟨-, hmss⟩
                rw [show matchesStringStart ms (t.drop (cur + j)) =
                    matchesStringStartAux ms 0 (t.drop (cur + j)) from rfl, hb] at hmss
                cases hmss
              · exact hmin i (by omega) h2

theorem findNonEmptyFrom_eq_none {sls : List (List Char)} (h : ∀ sl ∈ sls, utf8Len sl = 0) :
    ∀ j, findNonEmptyFrom sls j = none := by
  induction sls with
  | nil => intro j; rfl
  | cons sl rest ih =>
    intro j
    simp only [findNonEmptyFrom]
    rw [if_neg (by have := h sl (by simp); omega)]
    exact ih (fun x hx => h x (by simp [hx])) (j+1)

theorem collectOccs_spec_anchor {ms : MultiSlice} {anchor t : List Char} {k : Nat}
    (hOne : OneByte t) (hfind : findNonEmptyFrom ms 0 = some (k, anchor)) :
    ∀ fuel cur, utf8Len t + 1 - cur < fuel →
      collectOccs ms (some anchor) t fuel cur =
        some ((List.range (t.length + 1)).filter
          (fun i => decide (cur ≤ i) && occursAtB ms t i)) := by
  have hus : utf8Len t = t.length := hOne.utf8Len_eq
  intro fuel
  induction fuel with
  | zero => intro cur h; omega
  | succ f ih =>
    intro cur hcur
    simp only [collectOccs, msIterNext]
    rcases nextOccAux_spec hOne hfind (utf8Len t + 1) cur (by omega)
      with ⟨hn, hall⟩ | ⟨pos, hn, hge, hlt2, hocc, hmin⟩
    · rw [hn]
      dsimp only
      congr 1
      symm
      rw [List.filter_eq_nil_iff]
      intro a ha
      simp only [Bool.and_eq_true, decide_eq_true_eq, not_and]
      intro hcura
      rw [hall a hcura]
      simp
    · rw [hn]
      dsimp only
      have hfuel : utf8Len t + 1 - (pos + 1) < f := by omega
      rw [ih (pos + 1) hfuel, Option.map_some']
      congr 1
      have hcongr :
          (List.range (t.length + 1)).filter (fun i => decide (cur ≤ i) && occursAtB ms t i) =
          (List.range (t.length + 1)).filter (fun i => decide (pos ≤ i) && occursAtB ms t i) := by
        apply List.filter_congr
        intro x hx
        by_cases h1 : x < cur
        · have e1 : decide (cur ≤ x) = false := by simp; omega
          have e2 : decide (pos ≤ x) = false := by simp; omega
          rw [e1, e2]
        · by_cases h2 : x < pos
          · rw [hmin x (by omega) h2]
            simp
          · have e1 : decide (cur ≤ x) = true := by simp; omega
            have e2 : decide (pos ≤ x) = true := by simp; omega
            rw [e1, e2]
      rw [hcongr]
      exact (filter_range_cons_of_first (show pos < t.length + 1 by omega) hocc).symm

theorem collectOccs_spec_empty {ms : MultiSlice} {t : List Char}
    (hOne : OneByte t) (hfind : findNonEmptyFrom ms 0 = none) :
    ∀ fuel cur, utf8Len t + 1 - cur < fuel →
      collectOccs ms none t fuel cur =
        some ((List.range (t.length + 1)).filter
          (fun i => decide (cur ≤ i) && occursAtB ms t i)) := by
  have hus : utf8Len t = t.length := hOne.utf8Len_eq
  have hocc : ∀ i, i ≤ t.length → occursAtB ms t i = true := by
    intro i hi
    rw [occursAtB_true_iff hOne]
    exact ⟨hi, matchesStringStartAux_all_empty hfind _⟩
  intro fuel
  induction fuel with
  | zero => intro cur h; omega
  | succ f ih =>
    intro cur hcur
    simp only [collectOccs, msIterNext]
    by_cases hle : cur ≤ utf8Len t
    · rw [if_pos hle]
      dsimp only
      have hfuel : utf8Len t + 1 - (cur + 1) < f := by omega
      rw [ih (cur + 1) hfuel, Option.map_some']
      congr 1
      have hcle : cur ≤ t.length := by omega
      exact (filter_range_cons_of_first (show cur < t.length + 1 by omega) (hocc cur hcle)).symm
    · rw [if_neg hle]
      dsimp only
      congr 1
      symm
      rw [List.filter_eq_nil_iff]
      intro a ha
      rw [List.mem_range] at ha
      simp only [Bool.and_eq_true, decide_eq_true_eq, not_and]
      intro hcura
      exact absurd hcura (by omega)

/-- Claim C3 (amended to single-byte targets): for every fragment buffer and
every target string of single-byte characters, the occurrence iterator yields,
in strictly ascending order, exactly the byte offsets `i` (from `0` through
the target's length) at which the suffix of the target starting at `i` exists
and `matches_string_start` returns `true` on it; in particular a buffer of
combined length `0` yields every offset from `0` through the target length
inclusive, and a non-empty buffer yields nothing on the empty target. -/
theorem C3_find_all_occurrences_ascii (ms : MultiSlice) (t : List Char) (hOne : OneByte t) :
    findAllOccurencesIn ms t =
      some ((List.range (utf8Len t + 1)).filter (occursAtB ms t)) ∧
    List.Pairwise (fun x y => x < y) ((List.range (utf8Len t + 1)).filter (occursAtB ms t)) ∧
    (getCombinedLength ms = 0 →
      (List.range (utf8Len t + 1)).filter (occursAtB ms t) = List.range (utf8Len t + 1)) ∧
    (getCombinedLength ms ≠ 0 → t = [] → findAllOccurencesIn ms t = some []) := by
  have hus : utf8Len t = t.length := hOne.utf8Len_eq
  have hmain : findAllOccurencesIn ms t =
      some ((List.range (utf8Len t + 1)).filter (occursAtB ms t)) := by
    unfold findAllOccurencesIn getNextNonEmptySlice
    rw [List.drop_zero]
    cases hf : findNonEmptyFrom ms 0 with
    | none =>
      rw [Option.map_none']
      rw [collectOccs_spec_empty hOne hf (utf8Len t + 2) 0 (by omega)]
      rw [hus]
      congr 1
      apply List.filter_congr
      intro x hx
      simp
    | some p =>
      obtain ⟨k, anchor⟩ := p
      rw [Option.map_some']
      rw [collectOccs_spec_anchor hOne hf (utf8Len t + 2) 0 (by omega)]
      rw [hus]
      congr 1
      apply List.filter_congr
      intro x hx
      simp
  refine ⟨hmain, ?_, ?_, ?_⟩
  · exact List.Pairwise.sublist (List.filter_sublist _) (List.pairwise_lt_range _)
  · intro hcomb
    rw [List.filter_eq_self]
    intro a ha
    rw [List.mem_range] at ha
    rw [occursAtB_true_iff hOne]
    refine ⟨by omega, ?_⟩
    exact matchesStringStartAux_all_empty
      (findNonEmptyFrom_eq_none ((getCombinedLength_eq_zero_iff ms).mp hcomb) 0) _
  · intro hcomb ht
    subst ht
    rw [hmain]
    congr 1
    rw [List.filter_eq_nil_iff]
    intro a ha
    have ha0 : a = 0 := by
      rw [List.mem_range] at ha
      simpa using ha
    subst ha0
    obtain ⟨p, hp⟩ : ∃ p, findNonEmptyFrom ms 0 = some p := by
      cases hf : findNonEmptyFrom ms 0 with
      | none =>
        exact absurd ((getCombinedLength_eq_zero_iff ms).mpr (findNonEmptyFrom_none hf)) hcomb
      | some p => exact ⟨p, rfl⟩
    obtain ⟨k, anchor⟩ := p
    rw [occursAtB]
    rw [show byteDrop 0 ([] : List Char) = some [] from rfl]
    dsimp only
    rw [show matchesStringStart ms [] = matchesStringStartAux ms 0 [] from rfl]
    rw [matchesStringStartAux_nil_of_anchor hp]
    simp

/-- Witness for C3 at buffer `["a"]` and target `"aba"`. -/
theorem C3_find_all_occurrences_ascii_witness :
    OneByte ['a', 'b', 'a'] ∧
    findAllOccurencesIn [['a']] ['a', 'b', 'a'] =
      some ((List.range (utf8Len ['a', 'b', 'a'] + 1)).filter
        (occursAtB [['a']] ['a', 'b', 'a'])) :=
  ⟨by decide, (C3_find_all_occurrences_ascii [['a']] ['a', 'b', 'a'] (by decide)).1⟩

/-- Counterexample for C3 as stated: on the target `"é"` (one character, two
bytes) the empty fragment buffer yields the offsets `0, 1, 2`, but offset `1`
lies inside the two-byte character, so the suffix starting there does not
exist: the offsets at which `matches_string_start` holds against an existing
suffix are exactly `0` and `2`.  The iterator therefore does not yield exactly
the matching offsets. -/
theorem C3_counterexample_multibyte_target :
    findAllOccurencesIn ([] : MultiSlice) ['é'] = some [0, 1, 2] ∧
    (List.range (utf8Len ['é'] + 1)).filter (occursAtB ([] : MultiSlice) ['é']) = [0, 2] ∧
    findAllOccurencesIn ([] : MultiSlice) ['é'] ≠
      some ((List.range (utf8Len ['é'] + 1)).filter (occursAtB ([] : MultiSlice) ['é'])) :=
  ⟨rfl, rfl, by decide⟩

/-! ## Claim C6: fragment-buffer equality -/

theorem utf8Len_flatten_eq (ms : MultiSlice) : utf8Len ms.flatten = getCombinedLength ms := by
  unfold getCombinedLength
  induction ms with
  | nil => simp
  | cons sl rest ih => simp [List.flatten_cons, ih]

theorem flatten_eq_nil_of_empty {l : List (List Char)} (h : ∀ sl ∈ l, utf8Len sl = 0) :
    l.flatten = [] := by
  induction l with
  | nil => simp
  | cons sl rest ih =>
    rw [List.flatten_cons]
    rw [utf8Len_eq_zero.mp (h sl (by simp))]
    rw [List.nil_append]
    exact ih (fun x hx => h x (by simp [hx]))

theorem findNonEmptyFrom_structure {sls : List (List Char)} {j no1 : Nat} {sl : List Char}
    (h : findNonEmptyFrom sls j = some (no1, sl)) :
    ∃ pre post, sls = pre ++ sl :: post ∧ (∀ x ∈ pre, utf8Len x = 0) ∧
      no1 = j + pre.length ∧ 0 < utf8Len sl := by
  induction sls generalizing j with
  | nil => cases h
  | cons s0 rest ih =>
    simp only [findNonEmptyFrom] at h
    split at h
    · rename_i hpos
      simp at h
      obtain ⟨rfl, rfl⟩ := h
      exact ⟨[], rest, rfl, by simp, by simp, hpos⟩
    · rename_i hpos
      obtain ⟨pre, post, hsplit, hpre, hno, hslpos⟩ := ih h
      refine ⟨s0 :: pre, post, by rw [hsplit]; rfl, ?_, by simp [hno]; omega, hslpos⟩
      intro x hx
      rcases List.mem_cons.mp hx with rfl | hx1
      · omega
      · exact hpre x hx1

theorem drop_of_getElem? {ms : MultiSlice} {no : Nat} {sl : List Char}
    (h : ms[no]? = some sl) : ms.drop no = sl :: ms.drop (no + 1) := by
  obtain ⟨hlt, hv⟩ := List.getElem?_eq_some_iff.mp h
  rw [List.drop_eq_getElem_cons hlt, hv]

theorem remMS_of_getNext_none {ms : MultiSlice} {no idx : Nat} {tail : List Char}
    (hnext : getNextNonEmptySlice ms no = none) (hrem : remMS ms no idx = some tail) :
    tail = [] := by
  unfold getNextNonEmptySlice at hnext
  have hfl : (ms.drop no).flatten = [] := flatten_eq_nil_of_empty (findNonEmptyFrom_none hnext)
  unfold remMS at hrem
  rw [hfl] at hrem
  cases idx with
  | zero => simp at hrem; exact hrem
  | succ n => simp [byteDrop] at hrem

theorem state_decompose {ms : MultiSlice} {no idx no1 : Nat} {sl tail : List Char}
    (hok : StateOk ms no idx) (hnext : getNextNonEmptySlice ms no = some (no1, sl))
    (hrem : remMS ms no idx = some tail) :
    ∃ tL, byteDrop idx sl = some tL ∧ tL ≠ [] ∧ utf8Len tL = utf8Len sl - idx ∧
      tail = tL ++ (ms.drop (no1 + 1)).flatten ∧ ms[no1]? = some sl := by
  rcases hok with rfl | ⟨sl0, tail0, hget0, hdrop0, hne0⟩
  · unfold getNextNonEmptySlice at hnext
    obtain ⟨pre, post, hsplit, hpre, hno1, hslpos⟩ := findNonEmptyFrom_structure hnext
    have hpreflat : pre.flatten = [] := flatten_eq_nil_of_empty hpre
    have hdropno1 : ms.drop no1 = sl :: post := by
      rw [hno1, ← List.drop_drop, hsplit, List.drop_left]
    have hdropno1succ : ms.drop (no1 + 1) = post := by
      have h1 : ms.drop (no1 + 1) = (ms.drop no1).drop 1 := by rw [List.drop_drop]
      rw [h1, hdropno1, List.drop_one, List.tail_cons]
    have hget : ms[no1]? = some sl := by
      have h0 := List.getElem?_drop ms no1 0
      rw [hdropno1] at h0
      simpa using h0.symm
    have hflat : (ms.drop no).flatten = sl ++ post.flatten := by
      rw [hsplit, List.flatten_append, hpreflat, List.nil_append, List.flatten_cons]
    unfold remMS at hrem
    rw [byteDrop_zero] at hrem
    simp only [Option.some_inj] at hrem
    refine ⟨sl, byteDrop_zero sl, ?_, by omega, ?_, hget⟩
    · intro hc
      rw [hc] at hslpos
      simp at hslpos
    · rw [← hrem, hflat, hdropno1succ]
  · have hsl0ne : sl0 ≠ [] := by
      intro hc
      subst hc
      cases idx with
      | zero => simp at hdrop0; exact hne0 hdrop0
      | succ n => simp [byteDrop] at hdrop0
    have hpos0 : 0 < utf8Len sl0 :=
      Nat.pos_of_ne_zero (fun h0 => hsl0ne (utf8Len_eq_zero.mp h0))
    have hdropno : ms.drop no = sl0 :: ms.drop (no + 1) := drop_of_getElem? hget0
    have hnext2 : getNextNonEmptySlice ms no = some (no, sl0) := by
      unfold getNextNonEmptySlice
      rw [hdropno]
      simp only [findNonEmptyFrom]
      rw [if_pos hpos0]
    rw [hnext2] at hnext
    simp at hnext
    obtain ⟨rfl, rfl⟩ := hnext
    unfold remMS at hrem
    rw [hdropno, List.flatten_cons] at hrem
    rw [byteDrop_append_of_some hdrop0] at hrem
    simp only [Option.some_inj] at hrem
    have hlen0 := byteDrop_some_utf8Len hdrop0
    exact ⟨tail0, hdrop0, hne0, by omega, hrem.symm, hget0⟩

theorem advance_facts {ms : MultiSlice} {no1 idx m : Nat} {sl tL wl : List Char}
    (hget : ms[no1]? = some sl) (hd : byteDrop idx sl = some tL)
    (htake : byteTake m tL = some wl) :
    (m = utf8Len tL →
      wl = tL ∧ remMS ms (no1 + 1) 0 = some ((ms.drop (no1 + 1)).flatten)) ∧
    (m ≠ utf8Len tL →
      ∃ tL1, byteDrop m tL = some tL1 ∧ tL = wl ++ tL1 ∧ tL1 ≠ [] ∧
        StateOk ms no1 (idx + m) ∧
        remMS ms no1 (idx + m) = some (tL1 ++ (ms.drop (no1 + 1)).flatten)) := by
  obtain ⟨hwlen, t1, hdrop1, hsplit1⟩ := byteTake_some htake
  constructor
  · intro hm
    constructor
    · exact prefix_eq_of_utf8Len_eq ⟨t1, hsplit1.symm⟩ (List.prefix_refl tL) (by omega)
    · unfold remMS
      rw [byteDrop_zero]
  · intro hm
    have hmlt : m < utf8Len tL := by
      have := utf8Len_le_of_prefix (⟨t1, hsplit1.symm⟩ : wl <+: tL)
      omega
    have hlent1 : utf8Len t1 = utf8Len tL - m := by
      have := byteDrop_some_utf8Len hdrop1
      omega
    have ht1ne : t1 ≠ [] := by
      intro hc
      rw [hc] at hlent1
      simp at hlent1
      omega
    have hd2 : byteDrop (idx + m) sl = some t1 := by
      rw [byteDrop_add_of_some hd]
      exact hdrop1
    refine ⟨t1, hdrop1, hsplit1, ht1ne, Or.inr ⟨sl, t1, hget, hd2, ht1ne⟩, ?_⟩
    unfold remMS
    rw [drop_of_getElem? hget, List.flatten_cons]
    rw [byteDrop_append_of_some hd2]

theorem msEqLoop_spec (a b : MultiSlice) :
    ∀ fuel lNo rNo lIdx rIdx tailA tailB,
      StateOk a lNo lIdx → StateOk b rNo rIdx →
      remMS a lNo lIdx = some tailA → remMS b rNo rIdx = some tailB →
      utf8Len tailA + utf8Len tailB < fuel →
      (msEqLoop a b fuel lNo rNo lIdx rIdx = some true ↔ tailA = tailB) := by
  intro fuel
  induction fuel with
  | zero =>
    intro lNo rNo lIdx rIdx tailA tailB hokA hokB hremA hremB hfuel
    omega
  | succ f ih =>
    intro lNo rNo lIdx rIdx tailA tailB hokA hokB hremA hremB hfuel
    simp only [msEqLoop]
    cases hga : getNextNonEmptySlice a lNo with
    | none =>
      have htA : tailA = [] := remMS_of_getNext_none hga hremA
      cases hgb : getNextNonEmptySlice b rNo with
      | none =>
        have htB : tailB = [] := remMS_of_getNext_none hgb hremB
        subst htA
        subst htB
        simp
      | some q =>
        obtain ⟨rNo1, rSl⟩ := q
        obtain ⟨tR, hdR, htRne, hlenR, htailB, hgetR⟩ := state_decompose hokB hgb hremB
        dsimp only
        constructor
        · intro hc; cases hc
        · intro hc
          rw [htA, htailB] at hc
          exact absurd hc.symm (by simp [htRne])
    | some p =>
      obtain ⟨lNo1, lSl⟩ := p
      obtain ⟨tL, hdL, htLne, hlenL, htailA, hgetL⟩ := state_decompose hokA hga hremA
      cases hgb : getNextNonEmptySlice b rNo with
      | none =>
        have htB : tailB = [] := remMS_of_getNext_none hgb hremB
        dsimp only
        constructor
        · intro hc; cases hc
        · intro hc
          rw [htB, htailA] at hc
          exact absurd hc (by simp [htLne])
      | some q =>
        obtain ⟨rNo1, rSl⟩ := q
        obtain ⟨tR, hdR, htRne, hlenR, htailB, hgetR⟩ := state_decompose hokB hgb hremB
        dsimp only
        rw [← hlenL, ← hlenR]
        simp only [byteSlice]
        rw [hdL, hdR]
        simp only [Option.some_bind]
        have harg1 : lIdx + min (utf8Len tL) (utf8Len tR) - lIdx =
            min (utf8Len tL) (utf8Len tR) := by omega
        have harg2 : rIdx + min (utf8Len tL) (utf8Len tR) - rIdx =
            min (utf8Len tL) (utf8Len tR) := by omega
        rw [harg1, harg2]
        have hposL : 0 < utf8Len tL :=
          Nat.pos_of_ne_zero (fun h0 => htLne (utf8Len_eq_zero.mp h0))
        have hposR : 0 < utf8Len tR :=
          Nat.pos_of_ne_zero (fun h0 => htRne (utf8Len_eq_zero.mp h0))
        have hTA : tL <+: tailA := ⟨_, htailA.symm⟩
        have hTB : tR <+: tailB := ⟨_, htailB.symm⟩
        cases htl : byteTake (min (utf8Len tL) (utf8Len tR)) tL with
        | none =>
          dsimp only
          constructor
          · intro hc; cases hc
          · intro hc
            rw [hc] at hTA
            rcases Nat.le_total (utf8Len tL) (utf8Len tR) with hle | hle
            · rw [Nat.min_eq_left hle, byteTake_prefix (List.prefix_refl tL)] at htl
              cases htl
            · rw [Nat.min_eq_right hle,
                byteTake_prefix (prefix_of_prefix_of_utf8Len_le hTB hTA hle)] at htl
              cases htl
        | some wl =>
          cases htr : byteTake (min (utf8Len tL) (utf8Len tR)) tR with
          | none =>
            dsimp only
            constructor
            · intro hc; cases hc
            · intro hc
              rw [hc] at hTA
              rcases Nat.le_total (utf8Len tR) (utf8Len tL) with hle | hle
              · rw [Nat.min_eq_right hle, byteTake_prefix (List.prefix_refl tR)] at htr
                cases htr
              · rw [Nat.min_eq_left hle,
                  byteTake_prefix (prefix_of_prefix_of_utf8Len_le hTA hTB hle)] at htr
                cases htr
          | some wr =>
            dsimp only
            obtain ⟨hwlen, t1, hdrop1, hsplit1⟩ := byteTake_some htl
            obtain ⟨hwrlen, t2, hdrop2, hsplit2⟩ := byteTake_some htr
            by_cases hww : wl = wr
            case neg =>
              rw [if_pos hww]
              constructor
              · intro hc; cases hc
              · intro hc
                have hwA : wl <+: tailA := by
                  rw [htailA, hsplit1, List.append_assoc]
                  exact ⟨_, rfl⟩
                have hwB : wr <+: tailA := by
                  rw [hc, htailB, hsplit2, List.append_assoc]
                  exact ⟨_, rfl⟩
                exact (hww (prefix_eq_of_utf8Len_eq hwA hwB (by omega))).elim
            case pos =>
              rw [if_neg (fun hc => hc hww)]
              obtain ⟨hadvL_eq, hadvL_ne⟩ := advance_facts hgetL hdL htl
              obtain ⟨hadvR_eq, hadvR_ne⟩ := advance_facts hgetR hdR htr
              have hsideL : ∃ nNo nIdx tailA1,
                  (if min (utf8Len tL) (utf8Len tR) = utf8Len tL then lNo1 + 1
                    else lNo1) = nNo ∧
                  (if min (utf8Len tL) (utf8Len tR) = utf8Len tL then 0
                    else lIdx + min (utf8Len tL) (utf8Len tR)) = nIdx ∧
                  StateOk a nNo nIdx ∧ remMS a nNo nIdx = some tailA1 ∧
                  tailA = wl ++ tailA1 ∧
                  utf8Len tailA = min (utf8Len tL) (utf8Len tR) + utf8Len tailA1 := by
                by_cases hmL : min (utf8Len tL) (utf8Len tR) = utf8Len tL
                · obtain ⟨hwl_tL, hremA1⟩ := hadvL_eq hmL
                  refine ⟨lNo1 + 1, 0, (a.drop (lNo1 + 1)).flatten, by rw [if_pos hmL],
                    by rw [if_pos hmL], Or.inl rfl, hremA1, ?_, ?_⟩
                  · rw [htailA, hwl_tL]
                  · rw [htailA]
                    simp
                    omega
                · obtain ⟨tL1, hdropL1, hsplitL1, htL1ne, hokL1, hremL1⟩ := hadvL_ne hmL
                  refine ⟨lNo1, lIdx + min (utf8Len tL) (utf8Len tR),
                    tL1 ++ (a.drop (lNo1 + 1)).flatten, by rw [if_neg hmL],
                    by rw [if_neg hmL], hokL1, hremL1, ?_, ?_⟩
                  · rw [htailA, hsplitL1, List.append_assoc]
                  · rw [htailA, hsplitL1]
                    simp
                    omega
              have hsideR : ∃ nNo nIdx tailB1,
                  (if min (utf8Len tL) (utf8Len tR) = utf8Len tR then rNo1 + 1
                    else rNo1) = nNo ∧
                  (if min (utf8Len tL) (utf8Len tR) = utf8Len tR then 0
                    else rIdx + min (utf8Len tL) (utf8Len tR)) = nIdx ∧
                  StateOk b nNo nIdx ∧ remMS b nNo nIdx = some tailB1 ∧
                  tailB = wr ++ tailB1 ∧
                  utf8Len tailB = min (utf8Len tL) (utf8Len tR) + utf8Len tailB1 := by
                by_cases hmR : min (utf8Len tL) (utf8Len tR) = utf8Len tR
                · obtain ⟨hwr_tR, hremB1⟩ := hadvR_eq hmR
                  refine ⟨rNo1 + 1, 0, (b.drop (rNo1 + 1)).flatten, by rw [if_pos hmR],
                    by rw [if_pos hmR], Or.inl rfl, hremB1, ?_, ?_⟩
                  · rw [htailB, hwr_tR]
                  · rw [htailB]
                    simp
                    omega
                · obtain ⟨tR1, hdropR1, hsplitR1, htR1ne, hokR1, hremR1⟩ := hadvR_ne hmR
                  refine ⟨rNo1, rIdx + min (utf8Len tL) (utf8Len tR),
                    tR1 ++ (b.drop (rNo1 + 1)).flatten, by rw [if_neg hmR],
                    by rw [if_neg hmR], hokR1, hremR1, ?_, ?_⟩
                  · rw [htailB, hsplitR1, List.append_assoc]
                  · rw [htailB, hsplitR1]
                    simp
                    omega
              obtain ⟨nNoL, nIdxL, tailA1, heqNoL, heqIdxL, hokA1, hremA1, htailA1, hlenA1⟩ :=
                hsideL
              obtain ⟨nNoR, nIdxR, tailB1, heqNoR, heqIdxR, hokB1, hremB1, htailB1, hlenB1⟩ :=
                hsideR
              rw [heqNoL, heqIdxL, heqNoR, heqIdxR]
              have hfuel1 : utf8Len tailA1 + utf8Len tailB1 < f := by
                have hm1 : 0 < min (utf8Len tL) (utf8Len tR) := by omega
                omega
              rw [ih nNoL nNoR nIdxL nIdxR tailA1 tailB1 hokA1 hokB1 hremA1 hremB1 hfuel1]
              rw [htailA1, htailB1, hww]
              exact (List.append_right_inj wr).symm

/-- Claim C6: two fragment buffers compare equal exactly when their
concatenated contents are equal, regardless of segmentation (segment counts,
boundaries, interspersed empty segments); in particular a buffer built from
one push of `"abcd"` equals a buffer built from pushes of `"ab"` then `"cd"`. -/
theorem C6_fragment_buffer_equality :
    (∀ a b : MultiSlice, (msEq a b = some true ↔ a.flatten = b.flatten)) ∧
    msEq ["abcd".toList] ["ab".toList, "cd".toList] = some true ∧
    msEq ["abcd".toList] ["ab".toList, "".toList, "cd".toList, "".toList] = some true := by
  refine ⟨?_, rfl, rfl⟩
  intro a b
  unfold msEq
  have hremA : remMS a 0 0 = some a.flatten := by
    unfold remMS
    rw [List.drop_zero, byteDrop_zero]
  have hremB : remMS b 0 0 = some b.flatten := by
    unfold remMS
    rw [List.drop_zero, byteDrop_zero]
  exact msEqLoop_spec a b (getCombinedLength a + getCombinedLength b + 1) 0 0 0 0
    a.flatten b.flatten (Or.inl rfl) (Or.inl rfl) hremA hremB
    (by rw [utf8Len_flatten_eq, utf8Len_flatten_eq]; omega)

end LibGlob
